import Mathlib

/-! # Trie autocomplete, bounded min-heap selector and stable priority queue

A shallow embedding of `src/app.js` and a verification development over it.

Conventions of the embedding.

* A JavaScript array is a `List`; an in-place update is a new list.
* Frequencies and priorities are integer Numbers, held in an `Int`; `+freq || 0` is `freq`
  and `Number(priority) || 0` is `priority`. The sum `(node.frequency || 0) + (+freq || 0)`
  is the addition of IEEE doubles, `JSNumber.add`: the exact sum rounded to 53 significant
  bits, ties to even, so it is exact up to magnitude `2 ^ 53` and not beyond. A sum that
  overflows is `Infinity`, held as `2 ^ 1024`, which compares above every finite Number as
  `Infinity` does.
* A word is the list of its characters (`for (const ch of word)` iterates characters); the
  character type `κ` is a parameter with decidable equality.
* A `Map` is an association list in insertion order: `set` of an absent key appends,
  `has`/`get` find the entry of the key.
* `while` loops are structural recursions on a fuel argument; each entry point passes the
  array length as fuel, which the loop can never exhaust (the index moves strictly towards
  the root, respectively towards the leaves, on every iteration).
* Reading a property of `undefined` raises a `TypeError`; a function that can do so
  returns an `Option`, `none` standing for the raised error.
-/

set_option autoImplicit false

/-! ## Definitions -/

/-- Destructuring swap `[data[i], data[j]] = [data[j], data[i]]`. Both indices are in
range wherever the source performs it. -/
def swapAt {α : Type} (data : List α) (i j : Nat) : List α :=
  match data[i]?, data[j]? with
  | some x, some y => (data.set i y).set j x
  | _, _ => data

/-- Heap element built by `autocomplete`: `{ word, freq: cur.frequency }`. -/
structure Item (κ : Type) where
  word : List κ
  freq : Int
  deriving DecidableEq

namespace MinHeap

variable {κ : Type}

/-- Source `size() { return this.data.length; }` -/
def size (data : List (Item κ)) : Nat := data.length

/-- Source `#parent(i) { return ((i - 1) >> 1); }`, used only for `i > 0`. -/
def parent (i : Nat) : Nat := (i - 1) / 2

/-- Source `#left(i) { return (i << 1) + 1; }` -/
def left (i : Nat) : Nat := 2 * i + 1

/-- Source `#right(i) { return (i << 1) + 2; }` -/
def right (i : Nat) : Nat := 2 * i + 2

/-- The loop of `#siftUp(i)`: while `i > 0`, stop when `data[i].freq >= data[p].freq`,
otherwise swap `i` with its parent `p` and continue from `p`. -/
def siftUpLoop : Nat → List (Item κ) → Nat → List (Item κ)
  | 0, data, _ => data
  | fuel + 1, data, i =>
    if 0 < i then
      let p := parent i
      match data[i]?, data[p]? with
      | some c, some q =>
        if c.freq ≥ q.freq then data
        else siftUpLoop fuel (swapAt data i p) p
      | _, _ => data
    else data

/-- Source `#siftUp(i)`. -/
def siftUp (data : List (Item κ)) (i : Nat) : List (Item κ) :=
  siftUpLoop data.length data i

/-- The test `this.data[a].freq < this.data[b].freq` of `#siftDown`. -/
def freqLt (data : List (Item κ)) (a b : Nat) : Bool :=
  match data[a]?, data[b]? with
  | some x, some y => decide (x.freq < y.freq)
  | _, _ => false

/-- The loop of `#siftDown(i)`: `s` is `i`, then the left child if it exists and is
smaller than `data[s]`, then the right child likewise; stop when `s === i`, otherwise
swap `i` with `s` and continue from `s`. -/
def siftDownLoop : Nat → List (Item κ) → Nat → List (Item κ)
  | 0, data, _ => data
  | fuel + 1, data, i =>
    let n := data.length
    let l := left i
    let r := right i
    let s := if l < n ∧ freqLt data l i = true then l else i
    let s := if r < n ∧ freqLt data r s = true then r else s
    if s = i then data
    else siftDownLoop fuel (swapAt data i s) s

/-- Source `#siftDown(i)`. -/
def siftDown (data : List (Item κ)) (i : Nat) : List (Item κ) :=
  siftDownLoop data.length data i

/-- Source `push(item)`: append, then sift the new last index up. -/
def push (data : List (Item κ)) (item : Item κ) : List (Item κ) :=
  siftUp (data ++ [item]) data.length

/-- Source `pop()`: `undefined` (`none`) on an empty heap; otherwise the root is returned,
the last element is removed and, when elements remain, written to index 0 and sifted
down. -/
def pop (data : List (Item κ)) : Option (Item κ) × List (Item κ) :=
  match data[0]?, data.getLast? with
  | some top, some last =>
    let rest := data.dropLast
    if rest.length ≠ 0 then (some top, siftDown (rest.set 0 last) 0)
    else (some top, rest)
  | _, _ => (none, data)

/-- Source `peek()`: `data[0]`, or `undefined` (`none`) on an empty heap. -/
def peek (data : List (Item κ)) : Option (Item κ) := data[0]?

/-- Source `toArray() { return [...this.data]; }` -/
def toArray (data : List (Item κ)) : List (Item κ) := data

end MinHeap

/-- A `TrieNode`: `children` (a `Map` in insertion order), `isEnd`, `frequency`. -/
inductive TrieNode (κ : Type) where
  | mk (children : List (κ × TrieNode κ)) (isEnd : Bool) (frequency : Int)

namespace TrieNode

variable {κ : Type}

/-- Field `children`. -/
def children : TrieNode κ → List (κ × TrieNode κ)
  | mk cs _ _ => cs

/-- Field `isEnd`. -/
def isEnd : TrieNode κ → Bool
  | mk _ e _ => e

/-- Field `frequency`. -/
def frequency : TrieNode κ → Int
  | mk _ _ f => f

/-- Source `new TrieNode()`: no children, `isEnd = false`, `frequency = 0`. -/
def empty : TrieNode κ := mk [] false 0

/-- Source `children.get(ch)` (`none` exactly when `children.has(ch)` is false). -/
def getChild [DecidableEq κ] : List (κ × TrieNode κ) → κ → Option (TrieNode κ)
  | [], _ => none
  | (k, n) :: rest, ch => if k = ch then some n else getChild rest ch

/-- The children map after the node stored under the present key `ch` was updated in place:
the entry keeps its position. -/
def setChild [DecidableEq κ] : List (κ × TrieNode κ) → κ → TrieNode κ → List (κ × TrieNode κ)
  | [], _, _ => []
  | (k, n) :: rest, ch, n' =>
    if k = ch then (k, n') :: rest else (k, n) :: setChild rest ch n'

end TrieNode

namespace JSNumber

/-- The integers of magnitude up to `2 ^ 53` are Numbers and are added exactly. -/
def two53 : Nat := 9007199254740992

/-- The magnitude `2 ^ 1024` at which a rounded sum overflows; it stands for `Infinity`. -/
def two1024 : Nat := 179769313486231590772930519078902473361797697894230657273430081157732675805500963132708477322407536021120113879871393357658789768814416622492847430639474124377767893424865485276302219601246094119453082952085005768838150682342462881473913110540827237163350510684586298239947245938479716304835356329624224137216

/-- The unit in the last place of `n`: the least power of two `u`, starting from `u`, for
which `n / u` fits in 53 bits. For `n` below `2 ^ 1024` at most 971 doublings are needed,
so the fuel passed by `roundNat` is never exhausted. -/
def ulpLoop : Nat → Nat → Nat → Nat
  | 0, u, _ => u
  | fuel + 1, u, n => if n / u < two53 then u else ulpLoop fuel (2 * u) n

/-- A natural number rounded to the nearest double, ties to the even significand; from
`2 ^ 1024` on the result is `Infinity`. -/
def roundNat (n : Nat) : Nat :=
  if two1024 ≤ n then two1024
  else
    let u := ulpLoop 1024 1 n
    let q := n / u
    let r := n % u
    if 2 * r < u then q * u
    else if u < 2 * r then q * u + u
    else if q % 2 = 0 then q * u
    else q * u + u

/-- An integer rounded to the nearest double (rounding is symmetric in the sign). -/
def round (s : Int) : Int :=
  if s < 0 then -(roundNat s.natAbs : Int) else (roundNat s.natAbs : Int)

/-- The value that stands for `Infinity`. -/
def inf : Int := (two1024 : Int)

/-- Addition `a + b` of two Numbers that are integers or infinite: an infinite operand is
the result (the operands of `insert` are never infinities of opposite sign, the argument
being an integer), otherwise the exact sum is rounded. -/
def add (a b : Int) : Int :=
  if a = inf ∨ a = -inf then a
  else if b = inf ∨ b = -inf then b
  else round (a + b)

end JSNumber

/-- A `Trie` owns its root node. -/
structure Trie (κ : Type) where
  root : TrieNode κ

namespace Trie

variable {κ : Type} [DecidableEq κ]

/-- Source `new Trie()`. -/
def empty : Trie κ := ⟨TrieNode.empty⟩

/-- The walk of `insert` from `node`: for each character create the child when absent
(appended to the map) and descend; at the end set `isEnd` and add `freq` to `frequency`
by the addition of Numbers.
The in-place mutation of the final node is rebuilt along the path. -/
def insertAt : TrieNode κ → List κ → Int → TrieNode κ
  | .mk cs _ f, [], freq => .mk cs true (JSNumber.add f freq)
  | .mk cs e f, ch :: rest, freq =>
    match TrieNode.getChild cs ch with
    | some child => .mk (TrieNode.setChild cs ch (insertAt child rest freq)) e f
    | none => .mk (cs ++ [(ch, insertAt TrieNode.empty rest freq)]) e f

/-- Source `insert(word, freq)`. -/
def insert (t : Trie κ) (word : List κ) (freq : Int) : Trie κ :=
  ⟨insertAt t.root word freq⟩

/-- The walk of `#getNode` from `node`: `null` (`none`) at the first absent character. -/
def getNodeFrom : TrieNode κ → List κ → Option (TrieNode κ)
  | node, [] => some node
  | node, ch :: rest =>
    match TrieNode.getChild node.children ch with
    | none => none
    | some child => getNodeFrom child rest

/-- Source `#getNode(prefix)`. -/
def getNode (t : Trie κ) (pfx : List κ) : Option (TrieNode κ) :=
  getNodeFrom t.root pfx

/-- The selector step of `dfs` at a terminal node: push while `heap.size() < K`; otherwise
compare with `heap.peek().freq` (a `TypeError`, `none`, when the heap is empty) and, when
the root is strictly smaller, pop it and push the item. -/
def offer (K : Int) (heap : List (Item κ)) (item : Item κ) : Option (List (Item κ)) :=
  if (MinHeap.size heap : Int) < K then some (MinHeap.push heap item)
  else
    match MinHeap.peek heap with
    | none => none
    | some m =>
      if m.freq < item.freq then some (MinHeap.push (MinHeap.pop heap).2 item)
      else some heap

/-- The assignment `path[depth] = ch` (always `depth ≤ path.length`). -/
def setPath (path : List κ) (depth : Nat) (ch : κ) : List κ :=
  if depth < path.length then path.set depth ch else path ++ [ch]

mutual
/-- The closure `dfs(cur, depth)` of `autocomplete`, threading the heap and the shared
`path` array. -/
def dfs (pfx : List κ) (K : Int) :
    TrieNode κ → Nat → List (Item κ) × List κ → Option (List (Item κ) × List κ)
  | .mk cs e f, depth, (heap, path) =>
    match (if e = true then offer K heap ⟨pfx ++ path.take depth, f⟩ else some heap) with
    | none => none
    | some heap' => dfsChildren pfx K cs depth (heap', path)
/-- The loop `for (const [ch, nxt] of cur.children)` of `dfs`. -/
def dfsChildren (pfx : List κ) (K : Int) :
    List (κ × TrieNode κ) → Nat → List (Item κ) × List κ → Option (List (Item κ) × List κ)
  | [], _, st => some st
  | (ch, nxt) :: rest, depth, (heap, path) =>
    match dfs pfx K nxt (depth + 1) (heap, setPath path depth ch) with
    | none => none
    | some st' => dfsChildren pfx K rest depth st'
end

/-- The call `.sort((a, b) => b.freq - a.freq)`: a stable sort, `a` staying before `b`
when `b.freq ≤ a.freq`. -/
def sortDesc (items : List (Item κ)) : List (Item κ) :=
  List.insertionSort (fun a b => b.freq ≤ a.freq) items

/-- Source `autocomplete(prefix, K)`: `[]` when the prefix is not a path; otherwise the
words of the heap left by `dfs`, sorted by frequency descending. `none` is a raised
`TypeError`. -/
def autocomplete (t : Trie κ) (pfx : List κ) (K : Int) : Option (List (List κ)) :=
  match getNode t pfx with
  | none => some []
  | some node =>
    match dfs pfx K node 0 ([], []) with
    | none => none
    | some (heap, _) => some ((sortDesc (MinHeap.toArray heap)).map Item.word)

/-- The tries the claims speak of: those built from the empty trie by `insert` calls. -/
inductive Built : Trie κ → Prop
  | empty : Built empty
  | insert (t : Trie κ) (word : List κ) (freq : Int) : Built t → Built (t.insert word freq)

/-- A word is indexed when its path exists and ends at a terminal node. -/
def indexed (t : Trie κ) (w : List κ) : Bool :=
  match t.getNode w with
  | some n => n.isEnd
  | none => false

/-- The accumulated frequency of a word: the `frequency` of the node at the end of its
path (0 when the path does not exist). -/
def freqAt (t : Trie κ) (w : List κ) : Int :=
  match t.getNode w with
  | some n => n.frequency
  | none => 0

mutual
/-- The terminal nodes below a node in the order `dfs` visits them (pre-order, children
in map order): the path from the node and the frequency of each. -/
def words : TrieNode κ → List (List κ × Int)
  | .mk cs e f => (if e = true then [([], f)] else []) ++ wordsChildren cs
/-- The terminal nodes below the children of a node, in visiting order. -/
def wordsChildren : List (κ × TrieNode κ) → List (List κ × Int)
  | [] => []
  | (ch, n) :: rest => (words n).map (fun p => (ch :: p.1, p.2)) ++ wordsChildren rest
end

mutual
/-- The keys of every children map are pairwise distinct, as in a `Map`. -/
def WF : TrieNode κ → Prop
  | .mk cs _ _ => WFChildren cs
/-- The keys of a children list are pairwise distinct and the children are well formed. -/
def WFChildren : List (κ × TrieNode κ) → Prop
  | [] => True
  | (k, n) :: rest => TrieNode.getChild rest k = none ∧ WF n ∧ WFChildren rest
end

/-- The selector driven by a stream of items: `offer` applied to each item in turn,
starting from `heap`. -/
def offerAll (K : Int) : List (Item κ) → List (Item κ) → Option (List (Item κ))
  | heap, [] => some heap
  | heap, x :: xs =>
    match offer K heap x with
    | none => none
    | some heap' => offerAll K heap' xs

end Trie

/-- A queue entry `{ request, priority, seq }`. -/
structure Entry (ρ : Type) where
  request : ρ
  priority : Int
  seq : Nat
  deriving DecidableEq

/-- A `PriorityQueue`: the heap array `data` and the counter `_seq`. -/
structure PriorityQueue (ρ : Type) where
  data : List (Entry ρ)
  _seq : Nat

namespace PriorityQueue

variable {ρ : Type}

/-- Source `new PriorityQueue()`. -/
def empty : PriorityQueue ρ := ⟨[], 0⟩

/-- Source `#parent(i)`. -/
def parent (i : Nat) : Nat := (i - 1) / 2

/-- Source `#left(i)`. -/
def left (i : Nat) : Nat := 2 * i + 1

/-- Source `#right(i)`. -/
def right (i : Nat) : Nat := 2 * i + 2

/-- Source `#greater(a, b)`: by priority when they differ, otherwise the smaller `seq`. -/
def greater (a b : Entry ρ) : Bool :=
  if a.priority ≠ b.priority then decide (a.priority > b.priority)
  else decide (a.seq < b.seq)

/-- The loop of `#siftUp(i)`: stop when the parent is greater than `data[i]`. -/
def siftUpLoop : Nat → List (Entry ρ) → Nat → List (Entry ρ)
  | 0, data, _ => data
  | fuel + 1, data, i =>
    if 0 < i then
      let p := parent i
      match data[i]?, data[p]? with
      | some c, some q =>
        if greater q c = true then data
        else siftUpLoop fuel (swapAt data i p) p
      | _, _ => data
    else data

/-- Source `#siftUp(i)`. -/
def siftUp (data : List (Entry ρ)) (i : Nat) : List (Entry ρ) :=
  siftUpLoop data.length data i

/-- The test `this.#greater(this.data[a], this.data[b])` of `#siftDown`. -/
def greaterAt (data : List (Entry ρ)) (a b : Nat) : Bool :=
  match data[a]?, data[b]? with
  | some x, some y => greater x y
  | _, _ => false

/-- The loop of `#siftDown(i)`. -/
def siftDownLoop : Nat → List (Entry ρ) → Nat → List (Entry ρ)
  | 0, data, _ => data
  | fuel + 1, data, i =>
    let n := data.length
    let l := left i
    let r := right i
    let s := if l < n ∧ greaterAt data l i = true then l else i
    let s := if r < n ∧ greaterAt data r s = true then r else s
    if s = i then data
    else siftDownLoop fuel (swapAt data i s) s

/-- Source `#siftDown(i)`. -/
def siftDown (data : List (Entry ρ)) (i : Nat) : List (Entry ρ) :=
  siftDownLoop data.length data i

/-- Source `enqueue(request, priority)`: the entry takes the current `_seq`, the counter
is incremented, the entry is appended and sifted up. -/
def enqueue (q : PriorityQueue ρ) (request : ρ) (priority : Int) : PriorityQueue ρ :=
  let item : Entry ρ := ⟨request, priority, q._seq⟩
  ⟨siftUp (q.data ++ [item]) q.data.length, q._seq + 1⟩

/-- Source `dequeue()`: `null` (`none`) on an empty queue; otherwise as `MinHeap.pop`. -/
def dequeue (q : PriorityQueue ρ) : Option (Entry ρ) × PriorityQueue ρ :=
  match q.data[0]?, q.data.getLast? with
  | some top, some last =>
    let rest := q.data.dropLast
    if rest.length ≠ 0 then (some top, ⟨siftDown (rest.set 0 last) 0, q._seq⟩)
    else (some top, ⟨rest, q._seq⟩)
  | _, _ => (none, q)

/-- Source `size() { return this.data.length; }` -/
def size (q : PriorityQueue ρ) : Nat := q.data.length

/-- Source `isEmpty() { return this.size() === 0; }` -/
def isEmpty (q : PriorityQueue ρ) : Bool := decide (q.size = 0)

/-- Enqueue the pairs of a list in order. -/
def enqueueAll (q : PriorityQueue ρ) (l : List (ρ × Int)) : PriorityQueue ρ :=
  l.foldl (fun acc x => enqueue acc x.1 x.2) q

/-- The dispatch loop `while (!pq.isEmpty()) { ... pq.dequeue() ... }`, collecting the
dequeued entries; the fuel bounds the number of iterations. -/
def drainLoop : Nat → PriorityQueue ρ → List (Entry ρ)
  | 0, _ => []
  | fuel + 1, q =>
    if q.isEmpty = true then []
    else
      match q.dequeue with
      | (some e, q') => e :: drainLoop fuel q'
      | (none, _) => []

/-- The dispatch loop run from `q`: at most `size()` iterations are possible. -/
def drain (q : PriorityQueue ρ) : List (Entry ρ) := drainLoop q.size q

/-- The queue states the claims speak of: those reached from a fresh queue by `enqueue`
and `dequeue` calls. -/
inductive Reachable : PriorityQueue ρ → Prop
  | fresh : Reachable empty
  | enqueue (q : PriorityQueue ρ) (request : ρ) (priority : Int) :
      Reachable q → Reachable (q.enqueue request priority)
  | dequeue (q : PriorityQueue ρ) : Reachable q → Reachable q.dequeue.2

/-- The invariant of the queue: the array is a max-heap for `greater`, the `seq` of its
entries are pairwise distinct and below the counter. -/
def Inv (q : PriorityQueue ρ) : Prop :=
  (∀ i x y, 0 < i → q.data[i]? = some x → q.data[(i - 1) / 2]? = some y →
    ¬ greater x y = true) ∧
  (q.data.map Entry.seq).Nodup ∧ ∀ e ∈ q.data, e.seq < q._seq

/-- The entries created by enqueueing the pairs of `l` in order when the counter is `s`. -/
def entriesFrom : Nat → List (ρ × Int) → List (Entry ρ)
  | _, [] => []
  | s, x :: l => ⟨x.1, x.2, s⟩ :: entriesFrom (s + 1) l

/-- The stable sort of the pairs by priority descending: an insertion sort placing each
pair before the first pair (of those enqueued after it) whose priority is not greater. -/
def stableByPriority (l : List (ρ × Int)) : List (ρ × Int) :=
  List.insertionSort (fun a b => b.2 ≤ a.2) l

end PriorityQueue

/-! ### The two array heaps over a common comparison

`MinHeap` and `PriorityQueue` run the same loops with different comparisons. The loops
below take the comparison as a parameter; the loops of the two classes are shown equal to
their instances, so that the heap theory is developed once. -/

namespace BinHeap

variable {α : Type}

/-- The sift-up loop with the stopping test `stop data[i] data[p]` as a parameter. -/
def siftUpLoop (stop : α → α → Bool) : Nat → List α → Nat → List α
  | 0, data, _ => data
  | fuel + 1, data, i =>
    if 0 < i then
      let p := (i - 1) / 2
      match data[i]?, data[p]? with
      | some c, some q =>
        if stop c q = true then data
        else siftUpLoop stop fuel (swapAt data i p) p
      | _, _ => data
    else data

/-- The test `better data[a] data[b]` on two indices of the array. -/
def holdsAt (better : α → α → Bool) (data : List α) (a b : Nat) : Bool :=
  match data[a]?, data[b]? with
  | some x, some y => better x y
  | _, _ => false

/-- The index `s` chosen by one iteration of the sift-down loop. -/
def pick (better : α → α → Bool) (data : List α) (i : Nat) : Nat :=
  let n := data.length
  let l := 2 * i + 1
  let r := 2 * i + 2
  let s := if l < n ∧ holdsAt better data l i = true then l else i
  if r < n ∧ holdsAt better data r s = true then r else s

/-- The sift-down loop with the test `better` as a parameter. -/
def siftDownLoop (better : α → α → Bool) : Nat → List α → Nat → List α
  | 0, data, _ => data
  | fuel + 1, data, i =>
    let s := pick better data i
    if s = i then data
    else siftDownLoop better fuel (swapAt data i s) s

/-- Append and sift up. -/
def push (stop : α → α → Bool) (data : List α) (x : α) : List α :=
  siftUpLoop stop (data ++ [x]).length (data ++ [x]) data.length

/-- Remove the root: the last element replaces it and is sifted down. -/
def pop (better : α → α → Bool) (data : List α) : Option α × List α :=
  match data[0]?, data.getLast? with
  | some top, some last =>
    let rest := data.dropLast
    if rest.length ≠ 0 then
      (some top, siftDownLoop better (rest.set 0 last).length (rest.set 0 last) 0)
    else (some top, rest)
  | _, _ => (none, data)

/-- What the heap theory needs of a comparison: `le` is a total preorder, the sift-up
test `stop c q` decides `le q c` up to ties, and `better a b` is the strict order. -/
structure Order (le : α → α → Prop) (stop better : α → α → Bool) : Prop where
  total : ∀ a b, le a b ∨ le b a
  trans : ∀ a b c, le a b → le b c → le a c
  stop_le : ∀ c q, stop c q = true → le q c
  not_stop_le : ∀ c q, stop c q = false → le c q
  better_iff : ∀ a b, better a b = true ↔ ¬ le b a

/-- The heap order on an array: every element is `le`-above by its parent. -/
def IsHeap (le : α → α → Prop) (data : List α) : Prop :=
  ∀ i x y, 0 < i → data[i]? = some x → data[(i - 1) / 2]? = some y → le y x

/-- The heap order holds except between `i` and its parent; the children of `i` are
already below the parent of `i`. -/
def ExceptUp (le : α → α → Prop) (data : List α) (i : Nat) : Prop :=
  (∀ j x y, 0 < j → j ≠ i → data[j]? = some x → data[(j - 1) / 2]? = some y → le y x) ∧
  (∀ j x y, 0 < i → 0 < j → (j - 1) / 2 = i → data[j]? = some x →
    data[(i - 1) / 2]? = some y → le y x)

/-- The heap order holds except between `i` and its children; the children of `i` are
already below the parent of `i`. -/
def ExceptDown (le : α → α → Prop) (data : List α) (i : Nat) : Prop :=
  (∀ j x y, 0 < j → (j - 1) / 2 ≠ i → data[j]? = some x →
    data[(j - 1) / 2]? = some y → le y x) ∧
  (∀ j x y, 0 < i → 0 < j → (j - 1) / 2 = i → data[j]? = some x →
    data[(i - 1) / 2]? = some y → le y x)

end BinHeap

namespace Trie

variable {κ : Type}

/-- The invariant of the selector of capacity `K`, with `disc` the items discarded so far:
the array is a min-heap by `freq` of at most `K` items, nothing was discarded before the
selector was full, and no discarded item has a greater frequency than a retained one. -/
def SelInv (K : Int) (heap disc : List (Item κ)) : Prop :=
  BinHeap.IsHeap (fun a b : Item κ => a.freq ≤ b.freq) heap ∧
  (heap.length : Int) ≤ K ∧
  (disc = [] ∨ K ≤ (heap.length : Int)) ∧
  ∀ r ∈ heap, ∀ d ∈ disc, d.freq ≤ r.freq

end Trie

namespace MinHeap

variable {κ : Type}

/-- The heaps reached from an empty heap by `push` and `pop` calls. -/
inductive Reachable : List (Item κ) → Prop
  | fresh : Reachable []
  | push (data : List (Item κ)) (item : Item κ) :
      Reachable data → Reachable (MinHeap.push data item)
  | pop (data : List (Item κ)) : Reachable data → Reachable (MinHeap.pop data).2

end MinHeap

namespace Trie

variable {κ : Type} [DecidableEq κ]

/-- Whether the path `p` from `node` exists and ends at a terminal node. -/
def endFrom (node : TrieNode κ) (p : List κ) : Bool :=
  match getNodeFrom node p with
  | some m => m.isEnd
  | none => false

/-- The `frequency` of the node at the end of the path `p` from `node` (0 when the path
does not exist). -/
def freqFrom (node : TrieNode κ) (p : List κ) : Int :=
  match getNodeFrom node p with
  | some m => m.frequency
  | none => 0

/-- The call `insert(word)` with the frequency argument omitted: the default parameter
`freq = 1` of the source applies. -/
def insertOmitted (t : Trie κ) (word : List κ) : Trie κ := t.insert word 1

/-- The tries built from the empty trie by `insert` calls whose frequency arguments are
non-negative. -/
inductive BuiltNonneg : Trie κ → Prop
  | empty : BuiltNonneg empty
  | insert (t : Trie κ) (word : List κ) (freq : Int) :
      0 ≤ freq → BuiltNonneg t → BuiltNonneg (t.insert word freq)

/-- The candidates of `autocomplete(prefix, K)` in the order `dfs` visits them: the
terminal nodes below the node of the prefix in pre-order, children in map order, each
with its word and frequency. -/
def visited (t : Trie κ) (pfx : List κ) : List (Item κ) :=
  match t.getNode pfx with
  | none => []
  | some node => (words node).map (fun p => ⟨pfx ++ p.1, p.2⟩)

/-- The selector step `offer` with the evicted items made visible: `ev` collects the
values returned by `heap.pop()`, which the source drops. -/
def offerEvict (K : Int) (heap ev : List (Item κ)) (item : Item κ) :
    Option (List (Item κ) × List (Item κ)) :=
  if (MinHeap.size heap : Int) < K then some (MinHeap.push heap item, ev)
  else
    match MinHeap.peek heap with
    | none => none
    | some m =>
      if m.freq < item.freq then
        match MinHeap.pop heap with
        | (some top, rest) => some (MinHeap.push rest item, top :: ev)
        | (none, rest) => some (MinHeap.push rest item, ev)
      else some (heap, ev)

/-- The selector driven by a stream, collecting the evicted items (latest first). -/
def runEvict (K : Int) :
    List (Item κ) → List (Item κ) → List (Item κ) → Option (List (Item κ) × List (Item κ))
  | heap, ev, [] => some (heap, ev)
  | heap, ev, x :: xs =>
    match offerEvict K heap ev x with
    | none => none
    | some (heap', ev') => runEvict K heap' ev' xs

end Trie

namespace PriorityQueue

variable {ρ : Type}

/-- A call on the queue: `enqueue(request, priority)` or `dequeue()`. -/
inductive Op (ρ : Type) where
  | enq (request : ρ) (priority : Int)
  | deq

/-- The queue after a call. -/
def step (q : PriorityQueue ρ) : Op ρ → PriorityQueue ρ
  | .enq request priority => q.enqueue request priority
  | .deq => q.dequeue.2

/-- The entry `item` that `enqueue(request, priority)` builds in the state `q`. -/
def enqueueItem (q : PriorityQueue ρ) (request : ρ) (priority : Int) : Entry ρ :=
  ⟨request, priority, q._seq⟩

/-- The entries created, in order, by a sequence of calls starting in the state `q`. -/
def created : PriorityQueue ρ → List (Op ρ) → List (Entry ρ)
  | _, [] => []
  | q, .enq request priority :: ops =>
    enqueueItem q request priority :: created (q.enqueue request priority) ops
  | q, .deq :: ops => created q.dequeue.2 ops

end PriorityQueue

/-- The vocabulary `seed` of the demonstration. -/
def seed : List (String × Int) :=
  [("apple", 10), ("application", 5), ("banana", 3), ("book", 8),
   ("binary", 1), ("bee", 7), ("bat", 4), ("ball", 2)]

/-- The trie of the demonstration: `for (const [w, f] of seed) trie.insert(w, f)`. -/
def seedTrie : Trie Char :=
  seed.foldl (fun t x => t.insert x.1.toList x.2) Trie.empty

/-! ## Checks on concrete inputs -/

example : (PriorityQueue.drain (PriorityQueue.enqueueAll PriorityQueue.empty
    [("A", 0), ("B", 0), ("C", 1)])).map Entry.request = ["C", "A", "B"] := by decide

example : Trie.autocomplete ((Trie.empty.insert "a".toList 1).insert "ab".toList 2) "a".toList 5
    = some ["ab".toList, "a".toList] := by decide

example : Trie.autocomplete ((Trie.empty.insert "a".toList 1).insert "ab".toList 2) "a".toList 0
    = none := by decide

example : JSNumber.add 3 4 = 7 := by decide

example : JSNumber.add 9007199254740992 1 = 9007199254740992 := by decide

example : JSNumber.add 9007199254740992 2 = 9007199254740994 := by decide

example : JSNumber.add 9007199254740994 1 = 9007199254740996 := by decide

example : JSNumber.add (-9007199254740992) (-1) = -9007199254740992 := by decide

example : seedTrie.autocomplete "b".toList 5
    = some ["book".toList, "bee".toList, "bat".toList, "banana".toList, "ball".toList] := by
  decide

/-! ## Theorems -/

/-! ### Swapping two cells -/

theorem swapAt_length {α : Type} (data : List α) (i j : Nat) :
    (swapAt data i j).length = data.length := by
  unfold swapAt
  split <;> simp

theorem swapAt_getElem? {α : Type} (data : List α) (i j k : Nat)
    (hi : i < data.length) (hj : j < data.length) :
    (swapAt data i j)[k]? = if k = j then data[i]? else if k = i then data[j]? else data[k]? := by
  unfold swapAt
  rw [List.getElem?_eq_getElem hi, List.getElem?_eq_getElem hj]
  simp only [List.getElem?_set, List.length_set]
  by_cases h1 : j = k
  · subst h1; simp [hj]
  · by_cases h2 : i = k
    · subst h2; simp [h1, hi, Ne.symm h1]
    · simp [h1, h2, Ne.symm h1, Ne.symm h2]

theorem cons_set_perm {α : Type} (x y : α) : ∀ (xs : List α) (j : Nat),
    xs[j]? = some y → List.Perm (y :: xs.set j x) (x :: xs)
  | [], j, h => by simp at h
  | z :: zs, 0, h => by
    simp at h; subst h
    simpa using List.Perm.swap _ _ _
  | z :: zs, j + 1, h => by
    simp at h
    have ih := cons_set_perm x y zs j h
    simp only [List.set_cons_succ]
    exact (List.Perm.swap z y _).trans ((ih.cons z).trans (List.Perm.swap x z _))

theorem swapAt_perm {α : Type} : ∀ (data : List α) (i j : Nat), List.Perm (swapAt data i j) data
  | [], i, j => by simp [swapAt]
  | x :: xs, 0, 0 => by simp [swapAt]
  | x :: xs, 0, j + 1 => by
    unfold swapAt
    cases h : xs[j]? with
    | none => simp [h]
    | some y => simpa [h] using cons_set_perm x y xs j h
  | x :: xs, i + 1, 0 => by
    unfold swapAt
    cases h : xs[i]? with
    | none => simp [h]
    | some y => simpa [h] using cons_set_perm x y xs i h
  | x :: xs, i + 1, j + 1 => by
    have ih := swapAt_perm xs i j
    unfold swapAt at ih ⊢
    simp only [List.getElem?_cons_succ]
    cases h1 : xs[i]? <;> cases h2 : xs[j]? <;> simp_all

theorem swapAt_left {α : Type} (data : List α) (i j : Nat)
    (hi : i < data.length) (hj : j < data.length) : (swapAt data i j)[i]? = data[j]? := by
  rw [swapAt_getElem? data i j i hi hj]
  by_cases h : i = j
  · subst h; simp
  · simp [h]

theorem swapAt_right {α : Type} (data : List α) (i j : Nat)
    (hi : i < data.length) (hj : j < data.length) : (swapAt data i j)[j]? = data[i]? := by
  rw [swapAt_getElem? data i j j hi hj]; simp

theorem swapAt_other {α : Type} (data : List α) (i j k : Nat)
    (hi : i < data.length) (hj : j < data.length) (hki : k ≠ i) (hkj : k ≠ j) :
    (swapAt data i j)[k]? = data[k]? := by
  rw [swapAt_getElem? data i j k hi hj]; simp [hki, hkj]

/-! ### Heap theory for the two sift loops -/

namespace BinHeap
variable {α : Type}

theorem siftUpLoop_perm (stop : α → α → Bool) :
    ∀ (fuel : Nat) (data : List α) (i : Nat), List.Perm (siftUpLoop stop fuel data i) data
  | 0, data, i => by simp [siftUpLoop]
  | fuel + 1, data, i => by
    unfold siftUpLoop
    split
    · dsimp only
      split
      · split
        · exact List.Perm.refl _
        · exact (siftUpLoop_perm stop fuel _ _).trans (swapAt_perm _ _ _)
      · exact List.Perm.refl _
    · exact List.Perm.refl _

theorem siftDownLoop_perm (better : α → α → Bool) :
    ∀ (fuel : Nat) (data : List α) (i : Nat), List.Perm (siftDownLoop better fuel data i) data
  | 0, data, i => by simp [siftDownLoop]
  | fuel + 1, data, i => by
    unfold siftDownLoop
    dsimp only
    split
    · exact List.Perm.refl _
    · exact (siftDownLoop_perm better fuel _ _).trans (swapAt_perm _ _ _)

theorem isHeap_of_exceptUp_zero {le : α → α → Prop} {data : List α}
    (h : ExceptUp le data 0) : IsHeap le data := by
  intro j x y hj hx hy
  exact h.1 j x y hj (by omega) hx hy

theorem siftUpLoop_isHeap {le : α → α → Prop} {stop better : α → α → Bool}
    (ord : Order le stop better) :
    ∀ (fuel : Nat) (data : List α) (i : Nat), i ≤ fuel → i < data.length →
      ExceptUp le data i → IsHeap le (siftUpLoop stop fuel data i)
  | 0, data, i, hf, _, hex => by
    have h0 : i = 0 := by omega
    subst h0
    exact isHeap_of_exceptUp_zero hex
  | fuel + 1, data, i, hf, hlen, hex => by
    unfold siftUpLoop
    by_cases hi : 0 < i
    · have hp : (i - 1) / 2 < i := by omega
      have hpl : (i - 1) / 2 < data.length := by omega
      have hci : data[i]? = some data[i] := List.getElem?_eq_getElem hlen
      have hqi : data[(i - 1) / 2]? = some data[(i - 1) / 2] := List.getElem?_eq_getElem hpl
      simp only [hi, if_true, hci, hqi]
      by_cases hs : stop data[i] data[(i - 1) / 2] = true
      · simp only [hs, if_true]
        intro j x y hj hx hy
        by_cases hji : j = i
        · rw [hji, hci] at hx; rw [hji, hqi] at hy
          cases hx; cases hy
          exact ord.stop_le _ _ hs
        · exact hex.1 j x y hj hji hx hy
      · simp only [hs]
        have hcq : le data[i] data[(i - 1) / 2] :=
          ord.not_stop_le _ _ (by simpa using hs)
        refine siftUpLoop_isHeap ord fuel _ _ (by omega)
          (by rw [swapAt_length]; exact hpl) ⟨?_, ?_⟩
        · intro j x y hj hjp hx hy
          by_cases hji : j = i
          · rw [hji, swapAt_left _ _ _ hlen hpl, hqi] at hx
            rw [hji, swapAt_right _ _ _ hlen hpl, hci] at hy
            cases hx; cases hy
            exact hcq
          · rw [swapAt_other _ _ _ _ hlen hpl hji hjp] at hx
            by_cases h1 : (j - 1) / 2 = (i - 1) / 2
            · rw [h1, swapAt_right _ _ _ hlen hpl, hci] at hy
              cases hy
              exact ord.trans _ _ _ hcq (hex.1 j x _ hj hji hx (by rw [h1]; exact hqi))
            · by_cases h2 : (j - 1) / 2 = i
              · rw [h2, swapAt_left _ _ _ hlen hpl, hqi] at hy
                cases hy
                exact hex.2 j x _ hi hj h2 hx hqi
              · rw [swapAt_other _ _ _ _ hlen hpl h2 h1] at hy
                exact hex.1 j x y hj hji hx hy
        · intro j x y hp0 hj hjp hx hy
          rw [swapAt_other _ _ _ _ hlen hpl (by omega) (by omega)] at hy
          have hyq : le y data[(i - 1) / 2] :=
            hex.1 _ _ y hp0 (by omega) hqi hy
          by_cases hji : j = i
          · rw [hji, swapAt_left _ _ _ hlen hpl, hqi] at hx
            cases hx
            exact hyq
          · rw [swapAt_other _ _ _ _ hlen hpl hji (by omega)] at hx
            exact ord.trans _ _ _ hyq (hex.1 j x _ hj hji hx (by rw [hjp]; exact hqi))
    · have h0 : i = 0 := by omega
      subst h0
      simp only [Nat.lt_irrefl, if_false]
      exact isHeap_of_exceptUp_zero hex

end BinHeap

namespace BinHeap
variable {α : Type}

theorem Order.refl {le : α → α → Prop} {stop better : α → α → Bool}
    (ord : Order le stop better) (a : α) : le a a := by
  cases ord.total a a <;> assumption

theorem Order.le_of_better {le : α → α → Prop} {stop better : α → α → Bool}
    (ord : Order le stop better) {a b : α} (h : better a b = true) : le a b := by
  cases ord.total a b with
  | inl h1 => exact h1
  | inr h1 => exact absurd h1 ((ord.better_iff a b).1 h)

theorem Order.le_of_not_better {le : α → α → Prop} {stop better : α → α → Bool}
    (ord : Order le stop better) {a b : α} (h : ¬ better a b = true) : le b a := by
  by_contra h1
  exact h ((ord.better_iff a b).2 h1)

theorem holdsAt_true {better : α → α → Bool} {data : List α} {a b : Nat}
    (h : holdsAt better data a b = true) :
    ∃ x y, data[a]? = some x ∧ data[b]? = some y ∧ better x y = true := by
  unfold holdsAt at h
  split at h
  · next x y hx hy => exact ⟨x, y, hx, hy, h⟩
  · simp at h

theorem holdsAt_false {better : α → α → Bool} {data : List α} {a b : Nat} {x y : α}
    (hx : data[a]? = some x) (hy : data[b]? = some y)
    (h : ¬ holdsAt better data a b = true) : ¬ better x y = true := by
  unfold holdsAt at h
  simpa [hx, hy] using h

theorem pick_spec {le : α → α → Prop} {stop better : α → α → Bool}
    (ord : Order le stop better) (data : List α) (i : Nat) :
    (pick better data i = i ∧
      ∀ o x y, 0 < o → (o - 1) / 2 = i → data[o]? = some x → data[i]? = some y → le y x) ∨
    (pick better data i ≠ i ∧ pick better data i < data.length ∧
      (pick better data i - 1) / 2 = i ∧ 0 < pick better data i ∧
      ∃ xs xi, data[pick better data i]? = some xs ∧ data[i]? = some xi ∧ le xs xi ∧
        ∀ o x, 0 < o → (o - 1) / 2 = i → data[o]? = some x → le xs x) := by
  have key : ∀ o, 0 < o → (o - 1) / 2 = i → o = 2 * i + 1 ∨ o = 2 * i + 2 := by
    intro o h1 h2; omega
  have hlt : ∀ (o : Nat) (x : α), data[o]? = some x → o < data.length := by
    intro o x h
    exact (List.getElem?_eq_some.1 h).1
  unfold pick
  dsimp only
  by_cases hA : 2 * i + 1 < data.length ∧ holdsAt better data (2 * i + 1) i = true
  · obtain ⟨xl, xi, hxl, hxi, hb⟩ := holdsAt_true hA.2
    have hli : le xl xi := ord.le_of_better hb
    rw [if_pos hA]
    by_cases hB : 2 * i + 2 < data.length ∧ holdsAt better data (2 * i + 2) (2 * i + 1) = true
    · obtain ⟨xr, xl', hxr, hxl', hb'⟩ := holdsAt_true hB.2
      rw [hxl] at hxl'; cases hxl'
      have hrl : le xr xl := ord.le_of_better hb'
      rw [if_pos hB]
      refine Or.inr ⟨by omega, hB.1, by omega, by omega, xr, xi, hxr, hxi,
        ord.trans _ _ _ hrl hli, ?_⟩
      intro o x ho hop hx
      rcases key o ho hop with h | h
      · rw [h, hxl] at hx; cases hx; exact hrl
      · rw [h, hxr] at hx; cases hx; exact ord.refl _
    · rw [if_neg hB]
      refine Or.inr ⟨by omega, hA.1, by omega, by omega, xl, xi, hxl, hxi, hli, ?_⟩
      intro o x ho hop hx
      rcases key o ho hop with h | h
      · rw [h, hxl] at hx; cases hx; exact ord.refl _
      · rw [h] at hx
        have hr : ¬ holdsAt better data (2 * i + 2) (2 * i + 1) = true :=
          fun hh => hB ⟨hlt _ _ hx, hh⟩
        exact ord.le_of_not_better (holdsAt_false hx hxl hr)
  · rw [if_neg hA]
    by_cases hB : 2 * i + 2 < data.length ∧ holdsAt better data (2 * i + 2) i = true
    · obtain ⟨xr, xi, hxr, hxi, hb⟩ := holdsAt_true hB.2
      have hri : le xr xi := ord.le_of_better hb
      rw [if_pos hB]
      refine Or.inr ⟨by omega, hB.1, by omega, by omega, xr, xi, hxr, hxi, hri, ?_⟩
      intro o x ho hop hx
      rcases key o ho hop with h | h
      · rw [h] at hx
        have hl : ¬ holdsAt better data (2 * i + 1) i = true :=
          fun hh => hA ⟨hlt _ _ hx, hh⟩
        exact ord.trans _ _ _ hri (ord.le_of_not_better (holdsAt_false hx hxi hl))
      · rw [h, hxr] at hx; cases hx; exact ord.refl _
    · rw [if_neg hB]
      refine Or.inl ⟨rfl, ?_⟩
      intro o x y ho hop hx hy
      rcases key o ho hop with h | h
      · rw [h] at hx
        have hl : ¬ holdsAt better data (2 * i + 1) i = true :=
          fun hh => hA ⟨hlt _ _ hx, hh⟩
        exact ord.le_of_not_better (holdsAt_false hx hy hl)
      · rw [h] at hx
        have hr : ¬ holdsAt better data (2 * i + 2) i = true :=
          fun hh => hB ⟨hlt _ _ hx, hh⟩
        exact ord.le_of_not_better (holdsAt_false hx hy hr)

theorem siftDownLoop_isHeap {le : α → α → Prop} {stop better : α → α → Bool}
    (ord : Order le stop better) :
    ∀ (fuel : Nat) (data : List α) (i : Nat), data.length ≤ fuel + i →
      ExceptDown le data i → IsHeap le (siftDownLoop better fuel data i)
  | 0, data, i, hf, hex => by
    unfold siftDownLoop
    intro j x y hj hx hy
    have hjl : j < data.length := (List.getElem?_eq_some.1 hx).1
    exact hex.1 j x y hj (by omega) hx hy
  | fuel + 1, data, i, hf, hex => by
    unfold siftDownLoop
    dsimp only
    rcases pick_spec ord data i with ⟨hs, hch⟩ | ⟨hs, hsl, hsp, hs0, xs, xi, hxs, hxi, hsi, hch⟩
    · rw [if_pos hs]
      intro j x y hj hx hy
      by_cases hji : (j - 1) / 2 = i
      · rw [hji] at hy
        exact hch j x y hj hji hx hy
      · exact hex.1 j x y hj hji hx hy
    · rw [if_neg hs]
      have hil : i < data.length := by omega
      have hlt : i < pick better data i := by omega
      refine siftDownLoop_isHeap ord fuel _ _ (by rw [swapAt_length]; omega) ⟨?_, ?_⟩
      · intro j x y hj hjp hx hy
        by_cases hjs : j = pick better data i
        · rw [hjs, swapAt_right _ _ _ hil hsl, hxi] at hx
          rw [hjs, hsp, swapAt_left _ _ _ hil hsl, hxs] at hy
          cases hx; cases hy
          exact hsi
        · by_cases hji : j = i
          · rw [hji, swapAt_left _ _ _ hil hsl, hxs] at hx
            rw [hji, swapAt_other _ _ _ _ hil hsl (by omega) (by omega)] at hy
            cases hx
            exact hex.2 _ _ y (by omega) hs0 hsp hxs hy
          · rw [swapAt_other _ _ _ _ hil hsl hji hjs] at hx
            by_cases hpi : (j - 1) / 2 = i
            · rw [hpi, swapAt_left _ _ _ hil hsl, hxs] at hy
              cases hy
              exact hch j x hj hpi hx
            · rw [swapAt_other _ _ _ _ hil hsl hpi hjp] at hy
              exact hex.1 j x y hj hpi hx hy
      · intro j x y _ hj hjp hx hy
        rw [hsp, swapAt_left _ _ _ hil hsl, hxs] at hy
        rw [swapAt_other _ _ _ _ hil hsl (by omega) (by omega)] at hx
        cases hy
        exact hex.1 j x _ hj (by omega) hx (by rw [hjp]; exact hxs)

theorem isHeap_root_le {le : α → α → Prop} {stop better : α → α → Bool}
    (ord : Order le stop better) {data : List α} (h : IsHeap le data) {r : α}
    (hr : data[0]? = some r) : ∀ (i : Nat) (x : α), data[i]? = some x → le r x := by
  intro i
  induction i using Nat.strong_induction_on with
  | _ i ih =>
    intro x hx
    by_cases hi : i = 0
    · subst hi
      rw [hr] at hx; cases hx
      exact ord.refl _
    · have hil : i < data.length := (List.getElem?_eq_some.1 hx).1
      have hpl : (i - 1) / 2 < data.length := by omega
      have hy : data[(i - 1) / 2]? = some data[(i - 1) / 2] := List.getElem?_eq_getElem hpl
      exact ord.trans _ _ _ (ih _ (by omega) _ hy) (h i x _ (by omega) hx hy)

end BinHeap

/-! ### Push and pop on a heap -/

namespace BinHeap
variable {α : Type}

theorem push_perm (stop : α → α → Bool) (data : List α) (x : α) :
    List.Perm (push stop data x) (data ++ [x]) :=
  siftUpLoop_perm stop _ _ _

theorem push_isHeap {le : α → α → Prop} {stop better : α → α → Bool}
    (ord : Order le stop better) {data : List α} (h : IsHeap le data) (x : α) :
    IsHeap le (push stop data x) := by
  unfold push
  refine siftUpLoop_isHeap ord _ _ _ (by simp) (by simp) ⟨?_, ?_⟩
  · intro j a b hj hjn ha hb
    have hjl : j < (data ++ [x]).length := (List.getElem?_eq_some.1 ha).1
    rw [List.length_append, List.length_singleton] at hjl
    rw [List.getElem?_append_left (by omega)] at ha hb
    exact h j a b hj ha hb
  · intro j a b hn hj hjp ha _
    have hjl : j < (data ++ [x]).length := (List.getElem?_eq_some.1 ha).1
    rw [List.length_append, List.length_singleton] at hjl
    omega

theorem pop_nil (better : α → α → Bool) : pop better ([] : List α) = (none, []) := rfl

theorem isHeap_dropLast {le : α → α → Prop} {data : List α} (h : IsHeap le data) :
    IsHeap le data.dropLast := by
  intro j a b hj ha hb
  rw [List.getElem?_dropLast] at ha hb
  split at ha
  · split at hb
    · exact h j a b hj ha hb
    · cases hb
  · cases ha

theorem exceptDown_set_zero {le : α → α → Prop} {data : List α} (h : IsHeap le data) (x : α) :
    ExceptDown le (data.set 0 x) 0 := by
  refine ⟨?_, ?_⟩
  · intro j a b hj hjp ha hb
    rw [List.getElem?_set_ne (by omega)] at ha hb
    exact h j a b hj ha hb
  · intro j a b h0
    omega

theorem pop_cons {le : α → α → Prop} {stop better : α → α → Bool}
    (ord : Order le stop better) (top : α) (tl : List α) :
    (pop better (top :: tl)).1 = some top ∧
    List.Perm (top :: (pop better (top :: tl)).2) (top :: tl) ∧
    (IsHeap le (top :: tl) → IsHeap le (pop better (top :: tl)).2) := by
  cases hl : (top :: tl).getLast? with
  | none => simp at hl
  | some last =>
    have hd : (top :: tl).dropLast ++ [last] = top :: tl :=
      List.dropLast_append_getLast? last hl
    unfold pop
    simp only [List.getElem?_cons_zero, hl]
    by_cases hr : ((top :: tl).dropLast).length ≠ 0
    · rw [if_pos hr]
      refine ⟨rfl, ?_, ?_⟩
      · refine List.Perm.cons _ ((siftDownLoop_perm better _ _ _).trans ?_)
        cases htl : tl with
        | nil => simp [htl] at hr
        | cons t ts =>
          rw [htl] at hd
          simp only [List.dropLast_cons₂, List.set_cons_zero] at hd ⊢
          have h2 : (t :: ts).dropLast ++ [last] = t :: ts := by
            simpa using hd
          have h3 : List.Perm (last :: (t :: ts).dropLast) ((t :: ts).dropLast ++ [last]) :=
            @List.perm_append_comm _ [last] (t :: ts).dropLast
          rw [h2] at h3
          exact h3
      · intro h
        exact siftDownLoop_isHeap ord _ _ _ (by omega)
          (exceptDown_set_zero (isHeap_dropLast h) last)
    · rw [if_neg hr]
      have hnil : (top :: tl).dropLast = [] := by
        apply List.eq_nil_of_length_eq_zero
        simpa using hr
      refine ⟨rfl, ?_, ?_⟩
      · rw [hnil] at hd ⊢
        simp at hd
        rw [← hd.2]
      · intro _
        rw [hnil]
        intro j a b _ ha
        simp at ha

end BinHeap

/-! ### The loops of the two classes are instances of the common loops -/

namespace MinHeap
variable {κ : Type}

/-- The heap order of `MinHeap`: by `freq`. -/
theorem freqOrder : BinHeap.Order (fun a b : Item κ => a.freq ≤ b.freq)
    (fun c q => decide (c.freq ≥ q.freq)) (fun a b => decide (a.freq < b.freq)) where
  total := fun a b => le_total a.freq b.freq
  trans := fun _ _ _ h1 h2 => le_trans h1 h2
  stop_le := fun c q h => by simpa using h
  not_stop_le := fun c q h => by
    have : ¬ (c.freq ≥ q.freq) := by simpa using h
    omega
  better_iff := fun a b => by simp

theorem minSiftUpLoop_eq : ∀ (fuel : Nat) (data : List (Item κ)) (i : Nat),
    siftUpLoop fuel data i
      = BinHeap.siftUpLoop (fun c q => decide (c.freq ≥ q.freq)) fuel data i
  | 0, _, _ => rfl
  | fuel + 1, data, i => by
    unfold siftUpLoop BinHeap.siftUpLoop
    simp only [parent, decide_eq_true_eq, minSiftUpLoop_eq fuel]
    rcases data[i]? with _ | c <;> rcases data[(i - 1) / 2]? with _ | q <;> rfl

theorem freqLt_eq (data : List (Item κ)) (a b : Nat) :
    freqLt data a b = BinHeap.holdsAt (fun a b => decide (a.freq < b.freq)) data a b := by
  unfold freqLt BinHeap.holdsAt
  rcases data[a]? with _ | x <;> rcases data[b]? with _ | y <;> rfl

theorem minSiftDownLoop_eq : ∀ (fuel : Nat) (data : List (Item κ)) (i : Nat),
    siftDownLoop fuel data i
      = BinHeap.siftDownLoop (fun a b => decide (a.freq < b.freq)) fuel data i
  | 0, _, _ => rfl
  | fuel + 1, data, i => by
    unfold siftDownLoop BinHeap.siftDownLoop BinHeap.pick
    simp only [left, right, freqLt_eq, minSiftDownLoop_eq fuel]

theorem push_eq (data : List (Item κ)) (x : Item κ) :
    push data x = BinHeap.push (fun c q => decide (c.freq ≥ q.freq)) data x := by
  unfold push siftUp BinHeap.push
  exact minSiftUpLoop_eq _ _ _

theorem pop_eq (data : List (Item κ)) :
    pop data = BinHeap.pop (fun a b => decide (a.freq < b.freq)) data := by
  unfold pop siftDown BinHeap.pop
  simp only [minSiftDownLoop_eq]
  rcases data[0]? with _ | x <;> rcases data.getLast? with _ | y <;> rfl

end MinHeap

namespace PriorityQueue
variable {ρ : Type}

/-- The heap order of the queue: `a` is not below `b` when `b` is not greater than `a`. -/
theorem greaterOrder : BinHeap.Order (fun a b : Entry ρ => ¬ greater b a = true)
    (fun c q => greater q c) greater where
  total := fun a b => by
    unfold greater
    by_cases h : a.priority = b.priority
    · simp [h]; omega
    · have h' : ¬ b.priority = a.priority := fun e => h e.symm
      simp [h, h']; omega
  trans := fun a b c => by
    unfold greater
    by_cases h1 : a.priority = b.priority <;> by_cases h2 : b.priority = c.priority <;>
      by_cases h3 : a.priority = c.priority <;>
      simp [h1, h2, h3, eq_comm] <;> omega
  stop_le := fun c q => by
    unfold greater
    by_cases h : c.priority = q.priority
    · simp [h]; omega
    · have h' : ¬ q.priority = c.priority := fun e => h e.symm
      simp [h, h']; omega
  not_stop_le := fun c q h => by simp [h]
  better_iff := fun a b => by simp

theorem pqSiftUpLoop_eq : ∀ (fuel : Nat) (data : List (Entry ρ)) (i : Nat),
    siftUpLoop fuel data i = BinHeap.siftUpLoop (fun c q => greater q c) fuel data i
  | 0, _, _ => rfl
  | fuel + 1, data, i => by
    unfold siftUpLoop BinHeap.siftUpLoop
    simp only [parent, pqSiftUpLoop_eq fuel]
    rcases data[i]? with _ | c <;> rcases data[(i - 1) / 2]? with _ | q <;> rfl

theorem greaterAt_eq (data : List (Entry ρ)) (a b : Nat) :
    greaterAt data a b = BinHeap.holdsAt greater data a b := by
  unfold greaterAt BinHeap.holdsAt
  rcases data[a]? with _ | x <;> rcases data[b]? with _ | y <;> rfl

theorem pqSiftDownLoop_eq : ∀ (fuel : Nat) (data : List (Entry ρ)) (i : Nat),
    siftDownLoop fuel data i = BinHeap.siftDownLoop greater fuel data i
  | 0, _, _ => rfl
  | fuel + 1, data, i => by
    unfold siftDownLoop BinHeap.siftDownLoop BinHeap.pick
    simp only [left, right, greaterAt_eq, pqSiftDownLoop_eq fuel]

theorem enqueue_data (q : PriorityQueue ρ) (r : ρ) (p : Int) :
    (q.enqueue r p).data = BinHeap.push (fun c q => greater q c) q.data ⟨r, p, q._seq⟩ := by
  unfold enqueue siftUp BinHeap.push
  exact pqSiftUpLoop_eq _ _ _

theorem dequeue_eq (q : PriorityQueue ρ) :
    q.dequeue = ((BinHeap.pop greater q.data).1, ⟨(BinHeap.pop greater q.data).2, q._seq⟩) := by
  unfold dequeue siftDown BinHeap.pop
  simp only [pqSiftDownLoop_eq]
  rcases q.data[0]? with _ | x <;> rcases q.data.getLast? with _ | y <;> try rfl
  dsimp only
  split <;> rfl

end PriorityQueue

/-! ### The priority queue -/

namespace PriorityQueue
variable {ρ : Type}

theorem greater_asymm (a b : Entry ρ) (h : greater a b = true) : ¬ greater b a = true := by
  unfold greater at h ⊢
  by_cases hp : a.priority = b.priority
  · simp [hp] at h ⊢; omega
  · have hp' : ¬ b.priority = a.priority := fun e => hp e.symm
    simp [hp, hp'] at h ⊢; omega

theorem greater_iff (a b : Entry ρ) :
    greater a b = true ↔
      b.priority < a.priority ∨ (b.priority = a.priority ∧ a.seq < b.seq) := by
  unfold greater
  by_cases hp : a.priority = b.priority
  · simp [hp]
  · have hp' : ¬ b.priority = a.priority := fun e => hp e.symm
    simp [hp, hp']

theorem inv_empty : Inv (empty : PriorityQueue ρ) := by
  refine ⟨?_, ?_, ?_⟩
  · intro i x y _ hx
    simp [empty] at hx
  · simp [empty]
  · intro e he
    simp [empty] at he

theorem inv_enqueue {q : PriorityQueue ρ} (h : Inv q) (r : ρ) (p : Int) :
    Inv (q.enqueue r p) := by
  obtain ⟨hheap, hnd, hlt⟩ := h
  have hperm := BinHeap.push_perm (fun c q => greater q c) q.data ⟨r, p, q._seq⟩
  rw [← enqueue_data] at hperm
  refine ⟨?_, ?_, ?_⟩
  · have := BinHeap.push_isHeap greaterOrder hheap ⟨r, p, q._seq⟩
    rw [← enqueue_data] at this
    exact this
  · rw [(hperm.map Entry.seq).nodup_iff]
    simp only [List.map_append, List.map_cons, List.map_nil]
    rw [List.nodup_append]
    refine ⟨hnd, by simp, ?_⟩
    intro a ha hb
    simp only [List.mem_singleton] at hb
    obtain ⟨e, he, hea⟩ := List.mem_map.1 ha
    have := hlt e he
    omega
  · intro e he
    have he' := hperm.mem_iff.1 he
    simp only [List.mem_append, List.mem_singleton] at he'
    have hs : (q.enqueue r p)._seq = q._seq + 1 := rfl
    rw [hs]
    rcases he' with h1 | h1
    · have := hlt e h1; omega
    · rw [h1]; simp

theorem dequeue_nil {q : PriorityQueue ρ} (h : q.data = []) : q.dequeue = (none, q) := by
  unfold dequeue
  simp [h]

theorem dequeue_cons {q : PriorityQueue ρ} {top : Entry ρ} {tl : List (Entry ρ)}
    (h : q.data = top :: tl) :
    q.dequeue.1 = some top ∧ List.Perm (top :: q.dequeue.2.data) q.data ∧
    q.dequeue.2._seq = q._seq ∧ (Inv q → Inv q.dequeue.2) := by
  have hp := BinHeap.pop_cons (@greaterOrder ρ) top tl
  rw [dequeue_eq, h]
  refine ⟨hp.1, hp.2.1, rfl, ?_⟩
  rintro ⟨hheap, hnd, hlt⟩
  rw [h] at hheap hnd hlt
  refine ⟨hp.2.2 hheap, ?_, ?_⟩
  · have h1 := (hp.2.1.map Entry.seq).nodup_iff.2 hnd
    simp only [List.map_cons] at h1
    exact (List.nodup_cons.1 h1).2
  · intro e he
    exact hlt e (hp.2.1.mem_iff.1 (List.mem_cons_of_mem _ he))

theorem inv_dequeue {q : PriorityQueue ρ} (h : Inv q) : Inv q.dequeue.2 := by
  cases hd : q.data with
  | nil => rw [dequeue_nil hd]; exact h
  | cons top tl => exact (dequeue_cons hd).2.2.2 h

theorem inv_of_reachable {q : PriorityQueue ρ} (h : Reachable q) : Inv q := by
  induction h with
  | fresh => exact inv_empty
  | enqueue q r p _ ih => exact inv_enqueue ih r p
  | dequeue q _ ih => exact inv_dequeue ih

/-- In a queue satisfying the invariant, the root is greater than every other entry. -/
theorem root_greater {q : PriorityQueue ρ} (h : Inv q) {top : Entry ρ} {tl : List (Entry ρ)}
    (hd : q.data = top :: tl) : ∀ e ∈ tl, greater top e = true := by
  obtain ⟨hheap, hnd, _⟩ := h
  intro e he
  obtain ⟨n, hn⟩ := List.mem_iff_getElem?.1 he
  have hroot : q.data[0]? = some top := by rw [hd]; simp
  have hen : q.data[n + 1]? = some e := by rw [hd]; simpa using hn
  have hle : ¬ greater e top = true :=
    BinHeap.isHeap_root_le greaterOrder hheap hroot (n + 1) e hen
  rw [hd] at hnd
  simp only [List.map_cons, List.nodup_cons, List.mem_map, not_exists, not_and] at hnd
  have hne : e.seq ≠ top.seq := hnd.1 e he
  rw [greater_iff] at hle ⊢
  omega

end PriorityQueue

namespace PriorityQueue
variable {ρ : Type}

theorem enqueueAll_spec : ∀ (l : List (ρ × Int)) (q : PriorityQueue ρ), Inv q →
    Inv (enqueueAll q l) ∧ List.Perm (enqueueAll q l).data (q.data ++ entriesFrom q._seq l)
  | [], q, h => by simpa [enqueueAll, entriesFrom] using h
  | x :: l, q, h => by
    have ih := enqueueAll_spec l (q.enqueue x.1 x.2) (inv_enqueue h x.1 x.2)
    have hperm := BinHeap.push_perm (fun c q => greater q c) q.data ⟨x.1, x.2, q._seq⟩
    rw [← enqueue_data] at hperm
    have hs : (q.enqueue x.1 x.2)._seq = q._seq + 1 := rfl
    have hstep : enqueueAll q (x :: l) = enqueueAll (q.enqueue x.1 x.2) l := rfl
    rw [hstep]
    refine ⟨ih.1, ih.2.trans ?_⟩
    rw [hs]
    simpa [entriesFrom] using hperm.append_right (entriesFrom (q._seq + 1) l)

theorem drainLoop_spec : ∀ (n : Nat) (q : PriorityQueue ρ), Inv q → q.data.length ≤ n →
    List.Sorted (fun a b => greater a b = true) (drainLoop n q) ∧
    List.Perm (drainLoop n q) q.data
  | 0, q, _, hn => by
    have : q.data = [] := List.eq_nil_of_length_eq_zero (by omega)
    simp [drainLoop, this]
  | n + 1, q, h, hn => by
    cases hd : q.data with
    | nil => simp [drainLoop, isEmpty, size, hd]
    | cons top tl =>
      obtain ⟨h1, h2, _, h4⟩ := dequeue_cons hd
      have hlen : q.dequeue.2.data.length ≤ n := by
        have := h2.length_eq
        rw [hd] at this hn
        simp only [List.length_cons] at this hn
        omega
      obtain ⟨ihs, ihp⟩ := drainLoop_spec n q.dequeue.2 (h4 h) hlen
      have hstep : drainLoop (n + 1) q = top :: drainLoop n q.dequeue.2 := by
        rw [drainLoop]
        have hne : q.isEmpty = false := by simp [isEmpty, size, hd]
        rw [hne]
        rcases hq : q.dequeue with ⟨o, q'⟩
        rw [hq] at h1
        simp only at h1
        subst h1
        simp
      rw [hstep]
      have hperm : List.Perm (top :: q.dequeue.2.data) (top :: tl) := by rw [← hd]; exact h2
      have hperm' : List.Perm q.dequeue.2.data tl := (List.perm_cons top).1 hperm
      refine ⟨List.sorted_cons.2 ⟨?_, ihs⟩, ?_⟩
      · intro b hb
        exact root_greater h hd b (hperm'.mem_iff.1 (ihp.mem_iff.1 hb))
      · exact (ihp.trans hperm').cons top

theorem sorted_orderedInsert_of_seq_lt (a : Entry ρ) : ∀ (m : List (Entry ρ)),
    (∀ b ∈ m, a.seq < b.seq) → List.Sorted (fun a b => greater a b = true) m →
    List.Sorted (fun a b => greater a b = true)
      (List.orderedInsert (fun a b : Entry ρ => b.priority ≤ a.priority) a m)
  | [], _, _ => by simp
  | b :: m, hlt, hs => by
    rw [List.orderedInsert]
    have hs' := List.sorted_cons.1 hs
    by_cases hab : b.priority ≤ a.priority
    · rw [if_pos hab]
      refine List.sorted_cons.2 ⟨?_, hs⟩
      intro x hx
      have hax := hlt x hx
      rw [greater_iff]
      rcases List.mem_cons.1 hx with hxb | hxm
      · subst hxb; omega
      · have := (greater_iff b x).1 (hs'.1 x hxm)
        omega
    · rw [if_neg hab]
      refine List.sorted_cons.2 ⟨?_, sorted_orderedInsert_of_seq_lt a m
        (fun x hx => hlt x (List.mem_cons_of_mem _ hx)) hs'.2⟩
      intro x hx
      rcases (List.mem_orderedInsert _).1 hx with hxa | hxm
      · subst hxa
        rw [greater_iff]; omega
      · exact hs'.1 x hxm

theorem sorted_insertionSort_of_seq : ∀ (l : List (Entry ρ)),
    List.Pairwise (fun a b => a.seq < b.seq) l →
    List.Sorted (fun a b => greater a b = true)
      (List.insertionSort (fun a b : Entry ρ => b.priority ≤ a.priority) l)
  | [], _ => by simp
  | a :: l, h => by
    rw [List.insertionSort]
    have h' := List.pairwise_cons.1 h
    refine sorted_orderedInsert_of_seq_lt a _ ?_ (sorted_insertionSort_of_seq l h'.2)
    intro b hb
    exact h'.1 b ((List.perm_insertionSort _ l).mem_iff.1 hb)

theorem entriesFrom_seq_ge : ∀ (l : List (ρ × Int)) (s : Nat),
    ∀ e ∈ entriesFrom s l, s ≤ e.seq
  | [], _, e, he => by simp [entriesFrom] at he
  | x :: l, s, e, he => by
    simp only [entriesFrom, List.mem_cons] at he
    rcases he with h | h
    · rw [h]
    · have := entriesFrom_seq_ge l (s + 1) e h
      omega

theorem entriesFrom_pairwise : ∀ (l : List (ρ × Int)) (s : Nat),
    List.Pairwise (fun a b : Entry ρ => a.seq < b.seq) (entriesFrom s l)
  | [], _ => by simp [entriesFrom]
  | x :: l, s => by
    simp only [entriesFrom]
    refine List.pairwise_cons.2 ⟨?_, entriesFrom_pairwise l (s + 1)⟩
    intro e he
    have := entriesFrom_seq_ge l (s + 1) e he
    show s < e.seq
    omega

theorem entriesFrom_map : ∀ (l : List (ρ × Int)) (s : Nat),
    (entriesFrom s l).map (fun e => (e.request, e.priority)) = l
  | [], _ => rfl
  | x :: l, s => by
    simp [entriesFrom, entriesFrom_map l (s + 1)]

/-- The dispatch loop returns the entries of the enqueued pairs, stably sorted. -/
theorem drain_enqueueAll (l : List (ρ × Int)) :
    (drain (enqueueAll empty l)).map Entry.request = (stableByPriority l).map Prod.fst := by
  obtain ⟨hinv, hperm⟩ := enqueueAll_spec l empty inv_empty
  obtain ⟨hs, hp⟩ := drainLoop_spec _ _ hinv (le_refl (enqueueAll empty l).data.length)
  have hperm' : List.Perm (enqueueAll empty l).data (entriesFrom 0 l) := by
    simpa [empty] using hperm
  have hsorted := sorted_insertionSort_of_seq _ (entriesFrom_pairwise l 0)
  haveI : IsAntisymm (Entry ρ) (fun a b => greater a b = true) :=
    ⟨fun a b hab hba => absurd hba (greater_asymm a b hab)⟩
  have heq : drain (enqueueAll empty l)
      = List.insertionSort (fun a b : Entry ρ => b.priority ≤ a.priority) (entriesFrom 0 l) :=
    List.eq_of_perm_of_sorted
      ((hp.trans hperm').trans (List.perm_insertionSort _ _).symm) hs hsorted
  rw [heq, stableByPriority]
  have hm := List.map_insertionSort (fun a b : Entry ρ => b.priority ≤ a.priority)
    (fun a b : ρ × Int => b.2 ≤ a.2) (fun e => (e.request, e.priority)) (entriesFrom 0 l)
    (fun a _ b _ => Iff.rfl)
  rw [entriesFrom_map] at hm
  rw [← hm, List.map_map]
  rfl

end PriorityQueue

namespace PriorityQueue
variable {ρ : Type}

theorem filter_orderedInsert (p : Int) (a : ρ × Int) : ∀ (m : List (ρ × Int)),
    (List.orderedInsert (fun a b : ρ × Int => b.2 ≤ a.2) a m).filter (fun x => decide (x.2 = p))
      = if a.2 = p then a :: m.filter (fun x => decide (x.2 = p))
        else m.filter (fun x => decide (x.2 = p))
  | [] => by
    by_cases h : a.2 = p <;> simp [h]
  | b :: m => by
    rw [List.orderedInsert]
    by_cases hab : b.2 ≤ a.2
    · rw [if_pos hab]
      by_cases h : a.2 = p <;> simp [List.filter_cons, h]
    · rw [if_neg hab]
      rw [List.filter_cons, filter_orderedInsert p a m]
      by_cases h : a.2 = p
      · have hb : ¬ b.2 = p := by omega
        simp [h, hb, List.filter_cons]
      · by_cases hb : b.2 = p <;> simp [h, hb, List.filter_cons]

/-- The function `stableByPriority` is a stable sort by priority descending: a permutation, sorted,
and keeping the pairs of each priority in their original order. -/
theorem stableByPriority_spec (l : List (ρ × Int)) :
    List.Perm (stableByPriority l) l ∧
    List.Sorted (fun a b : ρ × Int => b.2 ≤ a.2) (stableByPriority l) ∧
    ∀ p : Int, (stableByPriority l).filter (fun x => decide (x.2 = p))
      = l.filter (fun x => decide (x.2 = p)) := by
  haveI : IsTotal (ρ × Int) (fun a b => b.2 ≤ a.2) := ⟨fun a b => le_total b.2 a.2⟩
  haveI : IsTrans (ρ × Int) (fun a b => b.2 ≤ a.2) := ⟨fun a b c h1 h2 => le_trans h2 h1⟩
  refine ⟨List.perm_insertionSort _ l, List.sorted_insertionSort _ l, ?_⟩
  intro p
  induction l with
  | nil => rfl
  | cons a l ih =>
    unfold stableByPriority at ih ⊢
    rw [List.insertionSort, filter_orderedInsert, ih, List.filter_cons]
    by_cases h : a.2 = p <;> simp [h]

end PriorityQueue

/-! ### The fuel is never exhausted

More fuel than the entry points pass does not change the result of a loop: each loop
leaves by its own exit test. -/

namespace BinHeap
variable {α : Type}

theorem siftUpLoop_fuel (stop : α → α → Bool) :
    ∀ (fuel : Nat) (data : List α) (i : Nat), i ≤ fuel →
      siftUpLoop stop (fuel + 1) data i = siftUpLoop stop fuel data i
  | 0, data, i, h => by
    have h0 : i = 0 := by omega
    subst h0
    simp [siftUpLoop]
  | fuel + 1, data, i, h => by
    rw [siftUpLoop, siftUpLoop.eq_def stop (fuel + 1)]
    by_cases hi : 0 < i
    · simp only [hi, if_true]
      rcases data[i]? with _ | c <;> rcases data[(i - 1) / 2]? with _ | q <;> try rfl
      dsimp only
      rw [siftUpLoop_fuel stop fuel _ _ (by omega)]
    · simp only [hi, if_false]

theorem pick_of_length_le (better : α → α → Bool) (data : List α) (i : Nat)
    (h : data.length ≤ i) : pick better data i = i := by
  unfold pick
  have h1 : ¬ 2 * i + 1 < data.length := by omega
  have h2 : ¬ 2 * i + 2 < data.length := by omega
  simp [h1, h2]

theorem pick_cases (better : α → α → Bool) (data : List α) (i : Nat) :
    pick better data i = i ∨ i < pick better data i := by
  unfold pick
  dsimp only
  split_ifs <;> omega

theorem siftDownLoop_succ (better : α → α → Bool) (fuel : Nat) (data : List α) (i : Nat) :
    siftDownLoop better (fuel + 1) data i
      = if pick better data i = i then data
        else siftDownLoop better fuel (swapAt data i (pick better data i))
          (pick better data i) := rfl

theorem siftDownLoop_fuel (better : α → α → Bool) :
    ∀ (fuel : Nat) (data : List α) (i : Nat), data.length ≤ fuel + i →
      siftDownLoop better (fuel + 1) data i = siftDownLoop better fuel data i
  | 0, data, i, h => by
    simp [siftDownLoop, pick_of_length_le better data i (by omega)]
  | fuel + 1, data, i, h => by
    rw [siftDownLoop_succ better fuel data i, siftDownLoop_succ better (fuel + 1) data i]
    by_cases hs : pick better data i = i
    · rw [if_pos hs, if_pos hs]
    · rw [if_neg hs, if_neg hs]
      have hlt : i < pick better data i := by
        rcases pick_cases better data i with h1 | h1
        · exact absurd h1 hs
        · exact h1
      exact siftDownLoop_fuel better fuel _ _ (by rw [swapAt_length]; omega)

end BinHeap

namespace PriorityQueue
variable {ρ : Type}

theorem drainLoop_succ (fuel : Nat) (q : PriorityQueue ρ) :
    drainLoop (fuel + 1) q
      = if q.isEmpty = true then []
        else
          match q.dequeue with
          | (some e, q') => e :: drainLoop fuel q'
          | (none, _) => [] := rfl

theorem drainLoop_fuel : ∀ (fuel : Nat) (q : PriorityQueue ρ), q.size ≤ fuel →
    drainLoop (fuel + 1) q = drainLoop fuel q
  | 0, q, h => by
    have h0 : q.isEmpty = true := by simp [isEmpty]; omega
    simp [drainLoop, h0]
  | fuel + 1, q, h => by
    rw [drainLoop_succ fuel q, drainLoop_succ (fuel + 1) q]
    cases hd : q.data with
    | nil =>
      have h0 : q.isEmpty = true := by simp [isEmpty, size, hd]
      simp [h0]
    | cons top tl =>
      have h0 : q.isEmpty = false := by simp [isEmpty, size, hd]
      obtain ⟨h1, h2, _, _⟩ := dequeue_cons hd
      have hlen : q.dequeue.2.size ≤ fuel := by
        have := h2.length_eq
        unfold size at h ⊢
        rw [hd] at this h
        simp only [List.length_cons] at this h
        omega
      rcases hq : q.dequeue with ⟨o, q'⟩
      rw [hq] at h1 hlen
      simp only at h1 hlen
      subst h1
      simp only [h0]
      rw [drainLoop_fuel fuel q' hlen]

end PriorityQueue

/-! ### Claims on the priority queue -/

/-- Claim C1. In every queue state reachable from a fresh queue by `enqueue` and `dequeue`
calls, if the queue is not empty then `dequeue` returns an entry of the queue that has the
greatest priority of all entries and, among the entries of that priority, the smallest
`seq`; it is the only entry with that priority and `seq`. -/
theorem C1_dequeue_returns_greatest {ρ : Type} (q : PriorityQueue ρ)
    (hq : PriorityQueue.Reachable q) (hne : q.isEmpty = false) :
    ∃ e, q.dequeue.1 = some e ∧ e ∈ q.data ∧
      (∀ e' ∈ q.data, e'.priority ≤ e.priority) ∧
      (∀ e' ∈ q.data, e'.priority = e.priority → e.seq ≤ e'.seq) ∧
      (∀ e' ∈ q.data, e'.priority = e.priority → e'.seq = e.seq → e' = e) := by
  have hinv := PriorityQueue.inv_of_reachable hq
  cases hd : q.data with
  | nil => simp [PriorityQueue.isEmpty, PriorityQueue.size, hd] at hne
  | cons top tl =>
    have hg := PriorityQueue.root_greater hinv hd
    refine ⟨top, (PriorityQueue.dequeue_cons hd).1, List.mem_cons_self _ _, ?_, ?_, ?_⟩
    · intro e he
      rcases List.mem_cons.1 he with h | h
      · rw [h]
      · have := (PriorityQueue.greater_iff top e).1 (hg e h)
        omega
    · intro e he hp
      rcases List.mem_cons.1 he with h | h
      · rw [h]
      · have := (PriorityQueue.greater_iff top e).1 (hg e h)
        omega
    · intro e he hp hs
      rcases List.mem_cons.1 he with h | h
      · exact h
      · have := (PriorityQueue.greater_iff top e).1 (hg e h)
        omega

/-- Witness of C1 on the queue holding `("A", 0)` and `("B", 1)`. -/
theorem C1_dequeue_returns_greatest_witness :
    PriorityQueue.Reachable ((PriorityQueue.empty.enqueue "A" 0).enqueue "B" 1) ∧
    ((PriorityQueue.empty.enqueue "A" 0).enqueue "B" 1).isEmpty = false ∧
    ∃ e, ((PriorityQueue.empty.enqueue "A" 0).enqueue "B" 1).dequeue.1 = some e ∧
      e ∈ ((PriorityQueue.empty.enqueue "A" 0).enqueue "B" 1).data ∧
      (∀ e' ∈ ((PriorityQueue.empty.enqueue "A" 0).enqueue "B" 1).data,
        e'.priority ≤ e.priority) ∧
      (∀ e' ∈ ((PriorityQueue.empty.enqueue "A" 0).enqueue "B" 1).data,
        e'.priority = e.priority → e.seq ≤ e'.seq) ∧
      (∀ e' ∈ ((PriorityQueue.empty.enqueue "A" 0).enqueue "B" 1).data,
        e'.priority = e.priority → e'.seq = e.seq → e' = e) :=
  ⟨.enqueue _ _ _ (.enqueue _ _ _ .fresh), by decide,
    C1_dequeue_returns_greatest _ (.enqueue _ _ _ (.enqueue _ _ _ .fresh)) (by decide)⟩

/-- Claim C2. For every finite list of (request, priority) pairs enqueued in order into a
fresh queue, dequeuing until `isEmpty()` returns exactly the requests of the list in the
order of the stable sort by priority descending (a permutation of the list, sorted by
priority descending, the pairs of each priority keeping their enqueue order). In
particular `(A,0), (B,0), (C,1)` comes out as `C, A, B`, and the requests
`b/0, app/0, bi/1, ba/0` of the demonstration come out as `bi, b, app, ba`. -/
theorem C2_drain_is_stable_sort :
    (∀ (ρ : Type) (l : List (ρ × Int)),
      (PriorityQueue.drain (PriorityQueue.enqueueAll PriorityQueue.empty l)).map Entry.request
        = (PriorityQueue.stableByPriority l).map Prod.fst ∧
      List.Perm (PriorityQueue.stableByPriority l) l ∧
      List.Sorted (fun a b : ρ × Int => b.2 ≤ a.2) (PriorityQueue.stableByPriority l) ∧
      ∀ p : Int, (PriorityQueue.stableByPriority l).filter (fun x => decide (x.2 = p))
        = l.filter (fun x => decide (x.2 = p))) ∧
    (PriorityQueue.drain (PriorityQueue.enqueueAll PriorityQueue.empty
        [("A", 0), ("B", 0), ("C", 1)])).map Entry.request = ["C", "A", "B"] ∧
    (PriorityQueue.drain (PriorityQueue.enqueueAll PriorityQueue.empty
        [("b", 0), ("app", 0), ("bi", 1), ("ba", 0)])).map Entry.request
      = ["bi", "b", "app", "ba"] :=
  ⟨fun _ l => ⟨PriorityQueue.drain_enqueueAll l, PriorityQueue.stableByPriority_spec l⟩,
    by decide, by decide⟩

/-! ### The bounded selector -/

namespace MinHeap
variable {κ : Type}

theorem minPush_spec (heap : List (Item κ)) (x : Item κ) :
    List.Perm (push heap x) (heap ++ [x]) ∧
    (BinHeap.IsHeap (fun a b : Item κ => a.freq ≤ b.freq) heap →
      BinHeap.IsHeap (fun a b : Item κ => a.freq ≤ b.freq) (push heap x)) := by
  rw [push_eq]
  exact ⟨BinHeap.push_perm _ _ _, fun h => BinHeap.push_isHeap freqOrder h x⟩

theorem minPop_spec (m : Item κ) (tl : List (Item κ)) :
    (pop (m :: tl)).1 = some m ∧ List.Perm (m :: (pop (m :: tl)).2) (m :: tl) ∧
    (BinHeap.IsHeap (fun a b : Item κ => a.freq ≤ b.freq) (m :: tl) →
      BinHeap.IsHeap (fun a b : Item κ => a.freq ≤ b.freq) (pop (m :: tl)).2) := by
  rw [pop_eq]
  exact BinHeap.pop_cons freqOrder m tl

theorem root_min {heap : List (Item κ)}
    (h : BinHeap.IsHeap (fun a b : Item κ => a.freq ≤ b.freq) heap) {m : Item κ}
    (hm : peek heap = some m) : ∀ x ∈ heap, m.freq ≤ x.freq := by
  intro x hx
  obtain ⟨n, hn⟩ := List.mem_iff_getElem?.1 hx
  exact BinHeap.isHeap_root_le freqOrder h hm n x hn

end MinHeap

namespace Trie
variable {κ : Type}

/-- The three cases of `offer` on a heap-ordered array. -/
theorem offer_cases (K : Int) (hK : 1 ≤ K) (heap : List (Item κ)) (item : Item κ)
    (hh : BinHeap.IsHeap (fun a b : Item κ => a.freq ≤ b.freq) heap) :
    ∃ heap', offer K heap item = some heap' ∧
      BinHeap.IsHeap (fun a b : Item κ => a.freq ≤ b.freq) heap' ∧
      (((heap.length : Int) < K ∧ List.Perm heap' (item :: heap)) ∨
       (K ≤ (heap.length : Int) ∧ ∃ m rest, MinHeap.peek heap = some m ∧
          List.Perm heap (m :: rest) ∧ (∀ x ∈ heap, m.freq ≤ x.freq) ∧
          ((m.freq < item.freq ∧ List.Perm heap' (item :: rest)) ∨
           (item.freq ≤ m.freq ∧ heap' = heap)))) := by
  unfold offer MinHeap.size
  by_cases hlt : (heap.length : Int) < K
  · rw [if_pos hlt]
    obtain ⟨hp, hi⟩ := MinHeap.minPush_spec heap item
    exact ⟨_, rfl, hi hh, Or.inl ⟨hlt, hp.trans (List.perm_append_comm)⟩⟩
  · rw [if_neg hlt]
    cases hd : heap with
    | nil =>
      rw [hd] at hlt
      simp at hlt
      omega
    | cons m tl =>
      have hpeek : MinHeap.peek (m :: tl) = some m := by simp [MinHeap.peek]
      obtain ⟨_, hperm, hheap⟩ := MinHeap.minPop_spec m tl
      have hmin : ∀ x ∈ m :: tl, m.freq ≤ x.freq := by
        rw [hd] at hh
        exact MinHeap.root_min hh hpeek
      have hperm' : List.Perm (m :: tl) (m :: (MinHeap.pop (m :: tl)).2) := hperm.symm
      rw [hpeek]
      dsimp only
      by_cases hf : m.freq < item.freq
      · rw [if_pos hf]
        obtain ⟨hp, hi⟩ := MinHeap.minPush_spec (MinHeap.pop (m :: tl)).2 item
        refine ⟨_, rfl, hi (hheap (hd ▸ hh)), Or.inr ⟨by rw [← hd]; omega, m, _, rfl, hperm',
          hmin, Or.inl ⟨hf, hp.trans List.perm_append_comm⟩⟩⟩
      · rw [if_neg hf]
        refine ⟨_, rfl, hd ▸ hh, Or.inr ⟨by rw [← hd]; omega, m, _, rfl, hperm',
          hmin, Or.inr ⟨by omega, rfl⟩⟩⟩

theorem offer_step (K : Int) (hK : 1 ≤ K) (heap disc : List (Item κ)) (item : Item κ)
    (h : SelInv K heap disc) :
    ∃ heap' disc', offer K heap item = some heap' ∧ SelInv K heap' disc' ∧
      List.Perm (heap' ++ disc') (item :: (heap ++ disc)) ∧
      (heap'.length : Int) = min K (heap.length + 1) := by
  obtain ⟨hh, hlen, hfull, hge⟩ := h
  obtain ⟨heap', ho, hh', hc⟩ := offer_cases K hK heap item hh
  rcases hc with ⟨hlt, hp⟩ | ⟨hKle, m, rest, hpeek, hp, hmin, hc⟩
  · have hd : disc = [] := by
      rcases hfull with h1 | h1
      · exact h1
      · omega
    have hl := hp.length_eq
    simp only [List.length_cons] at hl
    refine ⟨heap', [], ho, ⟨hh', by omega, Or.inl rfl, by simp⟩, ?_, ?_⟩
    · simpa [hd] using hp
    · rw [hl]; push_cast; omega
  · rcases hc with ⟨hf, hp'⟩ | ⟨hf, he⟩
    · have hl := hp.length_eq
      have hl' := hp'.length_eq
      simp only [List.length_cons] at hl hl'
      refine ⟨heap', m :: disc, ho, ⟨hh', by omega, Or.inr (by omega), ?_⟩, ?_, ?_⟩
      · intro r hr d hd
        have hr' := hp'.mem_iff.1 hr
        have hmh : m ∈ heap := hp.mem_iff.2 (List.mem_cons_self _ _)
        rcases List.mem_cons.1 hd with hdm | hdd
        · subst hdm
          rcases List.mem_cons.1 hr' with h1 | h1
          · rw [h1]; omega
          · exact hmin r (hp.mem_iff.2 (List.mem_cons_of_mem _ h1))
        · rcases List.mem_cons.1 hr' with h1 | h1
          · have := hge m hmh d hdd
            rw [h1]; omega
          · exact hge r (hp.mem_iff.2 (List.mem_cons_of_mem _ h1)) d hdd
      · have h1 : List.Perm (heap' ++ m :: disc) ((item :: rest) ++ m :: disc) :=
          hp'.append_right _
        have h2 : List.Perm ((item :: rest) ++ m :: disc) (item :: ((m :: rest) ++ disc)) := by
          simp only [List.cons_append]
          exact (List.perm_middle).cons item
        exact h1.trans (h2.trans ((hp.symm.append_right disc).cons item))
      · rw [hl']; push_cast; omega
    · rw [he] at ho
      refine ⟨heap, item :: disc, ho, ⟨hh, hlen, Or.inr hKle, ?_⟩, ?_, ?_⟩
      · intro r hr d hd
        rcases List.mem_cons.1 hd with hdm | hdd
        · rw [hdm]
          have := hmin r hr
          omega
        · exact hge r hr d hdd
      · exact List.perm_middle
      · omega

theorem offerAll_spec (K : Int) (hK : 1 ≤ K) : ∀ (items heap disc : List (Item κ)),
    SelInv K heap disc →
    ∃ heap' disc', offerAll K heap items = some heap' ∧ SelInv K heap' disc' ∧
      List.Perm (heap' ++ disc') ((heap ++ disc) ++ items) ∧
      (heap'.length : Int) = min K (heap.length + items.length)
  | [], heap, disc, h => by
    refine ⟨heap, disc, rfl, h, by simp, ?_⟩
    have := h.2.1
    simp only [List.length_nil]
    omega
  | x :: xs, heap, disc, h => by
    obtain ⟨h1, d1, ho, hinv, hp, hl⟩ := offer_step K hK heap disc x h
    obtain ⟨h2, d2, ho2, hinv2, hp2, hl2⟩ := offerAll_spec K hK xs h1 d1 hinv
    refine ⟨h2, d2, ?_, hinv2, ?_, ?_⟩
    · rw [offerAll, ho]
      exact ho2
    · refine hp2.trans ((hp.append_right xs).trans ?_)
      simp only [List.cons_append]
      exact (List.perm_middle).symm
    · rw [hl2, hl]
      simp only [List.length_cons]
      push_cast
      omega

theorem selInv_nil (K : Int) (hK : 1 ≤ K) : SelInv K ([] : List (Item κ)) [] := by
  refine ⟨?_, by simp; omega, Or.inl rfl, by simp⟩
  intro i x y _ hx
  simp at hx

end Trie

/-! ### Claims on the bounded selector -/

/-- Claim C9. For `K ≥ 1` and a selector state reached from the empty selector by any stream
of offers, the step `offer` has exactly this effect on the retained multiset: if
`size < K` the item is added; otherwise `peek` is an item `m` of minimum frequency and, if
`item.freq` is strictly greater than `m.freq`, `m` is removed and the item is added, while
otherwise (a tie included) the retained array is unchanged and the item is discarded. -/
theorem C9_offer_effect {κ : Type} (K : Int) (hK : 1 ≤ K) (stream heap : List (Item κ))
    (item : Item κ) (hreach : Trie.offerAll K [] stream = some heap) :
    ∃ heap', Trie.offer K heap item = some heap' ∧
      (((MinHeap.size heap : Int) < K ∧ List.Perm heap' (item :: heap)) ∨
       (K ≤ (MinHeap.size heap : Int) ∧ ∃ m rest, MinHeap.peek heap = some m ∧
          List.Perm heap (m :: rest) ∧ (∀ x ∈ heap, m.freq ≤ x.freq) ∧
          ((m.freq < item.freq ∧ List.Perm heap' (item :: rest)) ∨
           (item.freq ≤ m.freq ∧ heap' = heap)))) := by
  obtain ⟨h1, d1, ho, hinv, _, _⟩ :=
    Trie.offerAll_spec K hK stream [] [] (Trie.selInv_nil K hK)
  rw [hreach] at ho
  cases ho
  obtain ⟨heap', ho', _, hc⟩ := Trie.offer_cases K hK heap item hinv.1
  exact ⟨heap', ho', hc⟩

/-- Witness of C9: a full selector of capacity 1 holding `a:1` is offered `b:2`. -/
theorem C9_offer_effect_witness :
    (1 : Int) ≤ 1 ∧
    Trie.offerAll 1 [] [(⟨"a".toList, 1⟩ : Item Char)] = some [⟨"a".toList, 1⟩] ∧
    ∃ heap', Trie.offer 1 [(⟨"a".toList, 1⟩ : Item Char)] ⟨"b".toList, 2⟩ = some heap' ∧
      (((MinHeap.size [(⟨"a".toList, 1⟩ : Item Char)] : Int) < 1 ∧
          List.Perm heap' (⟨"b".toList, 2⟩ :: [⟨"a".toList, 1⟩])) ∨
       ((1 : Int) ≤ (MinHeap.size [(⟨"a".toList, 1⟩ : Item Char)] : Int) ∧
          ∃ m rest, MinHeap.peek [(⟨"a".toList, 1⟩ : Item Char)] = some m ∧
          List.Perm [(⟨"a".toList, 1⟩ : Item Char)] (m :: rest) ∧
          (∀ x ∈ [(⟨"a".toList, 1⟩ : Item Char)], m.freq ≤ x.freq) ∧
          ((m.freq < (⟨"b".toList, 2⟩ : Item Char).freq ∧
              List.Perm heap' (⟨"b".toList, 2⟩ :: rest)) ∨
           ((⟨"b".toList, 2⟩ : Item Char).freq ≤ m.freq ∧
              heap' = [(⟨"a".toList, 1⟩ : Item Char)])))) :=
  ⟨by decide, by decide,
    C9_offer_effect 1 (by decide) [⟨"a".toList, 1⟩] [⟨"a".toList, 1⟩] ⟨"b".toList, 2⟩
      (by decide)⟩

/-- Claim C10. For every `K ≥ 1` and every finite stream of items offered to a fresh
selector, after each offer (after the first `n` items, for every `n`) the selector has
not raised, holds at most `K` items, and every retained item has a frequency greater than
or equal to that of every item discarded so far, the discarded items being those of the
stream that are not retained (evicted or rejected on arrival). -/
theorem C10_selector_invariant {κ : Type} (K : Int) (hK : 1 ≤ K) (stream : List (Item κ))
    (n : Nat) :
    ∃ heap disc, Trie.offerAll K [] (stream.take n) = some heap ∧
      List.Perm (heap ++ disc) (stream.take n) ∧
      (MinHeap.size heap : Int) ≤ K ∧
      ∀ r ∈ heap, ∀ d ∈ disc, d.freq ≤ r.freq := by
  obtain ⟨heap, disc, ho, hinv, hp, _⟩ :=
    Trie.offerAll_spec K hK (stream.take n) [] [] (Trie.selInv_nil K hK)
  exact ⟨heap, disc, ho, by simpa using hp, hinv.2.1, hinv.2.2.2⟩

/-- Witness of C10: capacity 2 and the stream `a:3, b:1, c:2`. -/
theorem C10_selector_invariant_witness :
    (1 : Int) ≤ 2 ∧
    ∃ heap disc,
      Trie.offerAll 2 []
        (([⟨"a".toList, 3⟩, ⟨"b".toList, 1⟩, ⟨"c".toList, 2⟩] : List (Item Char)).take 3)
        = some heap ∧
      List.Perm (heap ++ disc)
        (([⟨"a".toList, 3⟩, ⟨"b".toList, 1⟩, ⟨"c".toList, 2⟩] : List (Item Char)).take 3) ∧
      (MinHeap.size heap : Int) ≤ 2 ∧
      ∀ r ∈ heap, ∀ d ∈ disc, d.freq ≤ r.freq :=
  ⟨by decide, C10_selector_invariant 2 (by decide) _ 3⟩

/-! ### Addition of integer Numbers -/

namespace JSNumber

theorem two53_eq : (two53 : Int) = 2 ^ 53 := by norm_num [two53]

theorem two53_lt_two1024 : two53 < two1024 := by decide

set_option exponentiation.threshold 2000 in
theorem two1024_eq : two1024 = 2 ^ 1024 := by norm_num [two1024]

/-- The search of the unit in the last place ends by its own test when the fuel covers
the doublings needed. -/
theorem ulpLoop_fits : ∀ (fuel u n : Nat), 0 < u → n < u * two53 * 2 ^ fuel →
    n / ulpLoop fuel u n < two53
  | 0, u, n, hu, h => by
    rw [ulpLoop, Nat.div_lt_iff_lt_mul hu]
    simpa [Nat.mul_comm] using h
  | fuel + 1, u, n, hu, h => by
    rw [ulpLoop]
    by_cases hq : n / u < two53
    · rw [if_pos hq]
      exact hq
    · rw [if_neg hq]
      refine ulpLoop_fits fuel (2 * u) n (by omega) ?_
      calc n < u * two53 * 2 ^ (fuel + 1) := h
        _ = 2 * u * two53 * 2 ^ fuel := by ring

/-- The fuel passed by `roundNat` is never exhausted: below `2 ^ 1024` the unit found
leaves a significand of at most 53 bits. -/
theorem roundNat_fuel (n : Nat) (h : n < two1024) : n / ulpLoop 1024 1 n < two53 := by
  refine ulpLoop_fits 1024 1 n (by decide) ?_
  rw [two1024_eq] at h
  have h53 : 0 < two53 := by decide
  calc n < 2 ^ 1024 := h
    _ ≤ 1 * two53 * 2 ^ 1024 := by
      rw [Nat.one_mul]
      exact Nat.le_mul_of_pos_left _ h53

/-- Up to `2 ^ 53` every natural number is a double. -/
theorem roundNat_exact (n : Nat) (h : n ≤ two53) : roundNat n = n := by
  have hlt : ¬ two1024 ≤ n := by
    have := two53_lt_two1024
    omega
  by_cases hn : n < two53
  · have hu : ulpLoop 1024 1 n = 1 := by
      show ulpLoop (1023 + 1) 1 n = 1
      simp [ulpLoop, hn]
    unfold roundNat
    rw [if_neg hlt]
    simp [hu, Nat.mod_one]
  · have he : n = two53 := by omega
    rw [he]
    decide

/-- Within `± 2 ^ 53` every integer is a double. -/
theorem round_exact (s : Int) (h1 : -(two53 : Int) ≤ s) (h2 : s ≤ (two53 : Int)) :
    round s = s := by
  have hn : s.natAbs ≤ two53 := by omega
  unfold round
  rw [roundNat_exact _ hn]
  split <;> omega

/-- The sum of two integers within `± 2 ^ 53` is exact whenever it lies within
`± 2 ^ 53`. -/
theorem add_exact (a b : Int) (ha1 : -(two53 : Int) ≤ a) (ha2 : a ≤ (two53 : Int))
    (hb1 : -(two53 : Int) ≤ b) (hb2 : b ≤ (two53 : Int))
    (hs1 : -(two53 : Int) ≤ a + b) (hs2 : a + b ≤ (two53 : Int)) : add a b = a + b := by
  have hlt : (two53 : Int) < inf := by
    unfold inf
    exact_mod_cast two53_lt_two1024
  unfold add
  rw [if_neg (by omega), if_neg (by omega)]
  exact round_exact _ hs1 hs2

/-- The sum of two non-negative Numbers is non-negative. -/
theorem add_nonneg (a b : Int) (ha : 0 ≤ a) (hb : 0 ≤ b) : 0 ≤ add a b := by
  unfold add
  split
  · exact ha
  · split
    · exact hb
    · unfold round
      rw [if_neg (by omega)]
      exact Int.natCast_nonneg _

end JSNumber

/-! ### The trie: `insert` and `#getNode` -/

namespace TrieNode
variable {κ : Type} [DecidableEq κ]

theorem getChild_setChild_self : ∀ (cs : List (κ × TrieNode κ)) (ch : κ) (c n' : TrieNode κ),
    getChild cs ch = some c → getChild (setChild cs ch n') ch = some n'
  | [], _, _, _, h => by simp [getChild] at h
  | (k, n) :: rest, ch, c, n', h => by
    simp only [getChild, setChild] at h ⊢
    by_cases hk : k = ch
    · simp [hk, getChild]
    · rw [if_neg hk] at h ⊢
      simp only [getChild, if_neg hk]
      exact getChild_setChild_self rest ch c n' h

theorem getChild_setChild_other : ∀ (cs : List (κ × TrieNode κ)) (ch k' : κ) (n' : TrieNode κ),
    k' ≠ ch → getChild (setChild cs ch n') k' = getChild cs k'
  | [], _, _, _, _ => rfl
  | (k, n) :: rest, ch, k', n', h => by
    simp only [setChild]
    by_cases hk : k = ch
    · rw [if_pos hk]
      have hkk : ¬ k = k' := fun e => h (e.symm.trans hk)
      simp only [getChild, if_neg hkk]
    · rw [if_neg hk]
      simp only [getChild]
      rw [getChild_setChild_other rest ch k' n' h]

theorem setChild_setChild : ∀ (cs : List (κ × TrieNode κ)) (ch : κ) (a b : TrieNode κ),
    setChild (setChild cs ch a) ch b = setChild cs ch b
  | [], _, _, _ => rfl
  | (k, n) :: rest, ch, a, b => by
    simp only [setChild]
    by_cases hk : k = ch
    · simp [hk, setChild]
    · simp [hk, setChild, setChild_setChild rest ch a b]

theorem getChild_append_new : ∀ (cs : List (κ × TrieNode κ)) (ch : κ) (n' : TrieNode κ),
    getChild cs ch = none → getChild (cs ++ [(ch, n')]) ch = some n'
  | [], ch, n', _ => by simp [getChild]
  | (k, n) :: rest, ch, n', h => by
    simp only [getChild, List.cons_append] at h ⊢
    by_cases hk : k = ch
    · simp [hk] at h
    · rw [if_neg hk] at h ⊢
      exact getChild_append_new rest ch n' h

theorem getChild_append_other : ∀ (cs : List (κ × TrieNode κ)) (ch k' : κ) (n' : TrieNode κ),
    k' ≠ ch → getChild (cs ++ [(ch, n')]) k' = getChild cs k'
  | [], ch, k', n', h => by simp [getChild, Ne.symm h]
  | (k, n) :: rest, ch, k', n', h => by
    have ih := getChild_append_other rest ch k' n' h
    simp only [getChild, List.cons_append, List.append_eq, ih]

theorem setChild_append_new : ∀ (cs : List (κ × TrieNode κ)) (ch : κ) (a b : TrieNode κ),
    getChild cs ch = none → setChild (cs ++ [(ch, a)]) ch b = cs ++ [(ch, b)]
  | [], ch, a, b, _ => by simp [setChild]
  | (k, n) :: rest, ch, a, b, h => by
    simp only [getChild] at h
    by_cases hk : k = ch
    · simp [hk] at h
    · rw [if_neg hk] at h
      have ih := setChild_append_new rest ch a b h
      simp only [List.cons_append, setChild, if_neg hk, List.append_eq, ih]

end TrieNode

namespace Trie
variable {κ : Type} [DecidableEq κ]

/-- The node at the end of the path of `w` after `insert(w, f)`: terminal, its frequency
the sum, as Numbers, of the previous one (0 for a created node) and `f`. -/
theorem getNodeFrom_insertAt_self : ∀ (w : List κ) (n : TrieNode κ) (f : Int),
    ∃ m, getNodeFrom (insertAt n w f) w = some m ∧ m.isEnd = true ∧
      m.frequency = JSNumber.add (match getNodeFrom n w with
        | some m0 => m0.frequency
        | none => 0) f
  | [], .mk cs e fr, f => by
    exact ⟨_, rfl, rfl, rfl⟩
  | ch :: rest, .mk cs e fr, f => by
    cases hc : TrieNode.getChild cs ch with
    | some child =>
      obtain ⟨m, h1, h2, h3⟩ := getNodeFrom_insertAt_self rest child f
      refine ⟨m, ?_, h2, ?_⟩
      · simp only [insertAt, hc, getNodeFrom, TrieNode.children]
        rw [TrieNode.getChild_setChild_self cs ch child _ hc]
        exact h1
      · simp only [getNodeFrom, TrieNode.children, hc]
        exact h3
    | none =>
      obtain ⟨m, h1, h2, h3⟩ := getNodeFrom_insertAt_self rest TrieNode.empty f
      have he : (match getNodeFrom (TrieNode.empty : TrieNode κ) rest with
          | some m0 => m0.frequency
          | none => 0) = 0 := by
        cases rest with
        | nil => rfl
        | cons c r => rfl
      refine ⟨m, ?_, h2, ?_⟩
      · simp only [insertAt, hc, getNodeFrom, TrieNode.children]
        rw [TrieNode.getChild_append_new cs ch _ hc]
        exact h1
      · simp only [getNodeFrom, TrieNode.children, hc]
        rw [h3, he]

end Trie

/-! ### Claims on `insert` and on the error cases of `autocomplete` -/

/-- Claim C6, the code at the failing input. With `K = 0` and a prefix whose subtree holds
a terminal node, `autocomplete` raises (`heap.peek()` is `undefined` on the empty heap and
its `freq` is read): on the trie holding only `a`, `autocomplete("a", 0)` raises, and so
does `autocomplete("b", -1)` on the reference vocabulary. -/
theorem C6_autocomplete_raises_for_nonpositive_K :
    Trie.autocomplete (Trie.empty.insert "a".toList 1) "a".toList 0 = none ∧
    seedTrie.autocomplete "b".toList (-1) = none := by
  decide

/-- Claim C7. For every trie, every `K` and every prefix that is not a path of the trie
(`#getNode` finds a character without a child), `autocomplete` returns the empty sequence
without raising. -/
theorem C7_autocomplete_absent_path {κ : Type} [DecidableEq κ] (t : Trie κ) (pfx : List κ)
    (K : Int) (h : t.getNode pfx = none) : t.autocomplete pfx K = some [] := by
  unfold Trie.autocomplete
  rw [h]

/-- Witness of C7: on the reference vocabulary `autocomplete("xyz", 5)` is `[]`. -/
theorem C7_autocomplete_absent_path_witness :
    seedTrie.getNode "xyz".toList = none ∧ seedTrie.autocomplete "xyz".toList 5 = some [] :=
  ⟨rfl, C7_autocomplete_absent_path seedTrie "xyz".toList 5 rfl⟩

/-! ### The traversal of `autocomplete` -/

namespace Trie
variable {κ : Type}

theorem offerAll_append (K : Int) : ∀ (l1 l2 heap : List (Item κ)),
    offerAll K heap (l1 ++ l2) = (offerAll K heap l1).bind (fun h => offerAll K h l2)
  | [], _, _ => rfl
  | x :: l1, l2, heap => by
    simp only [List.cons_append, offerAll]
    cases offer K heap x with
    | none => rfl
    | some h => exact offerAll_append K l1 l2 h

theorem setPath_spec (path : List κ) (depth : Nat) (ch : κ) (h : depth ≤ path.length) :
    depth + 1 ≤ (setPath path depth ch).length ∧
    (setPath path depth ch).take (depth + 1) = path.take depth ++ [ch] := by
  unfold setPath
  by_cases hd : depth < path.length
  · rw [if_pos hd]
    refine ⟨by simp; omega, ?_⟩
    rw [List.set_eq_take_append_cons_drop, if_pos hd]
    rw [List.take_append_eq_append_take]
    simp [List.length_take, Nat.min_eq_left h]
  · rw [if_neg hd]
    have he : depth = path.length := by omega
    subst he
    simp

theorem take_of_take_succ {l1 l2 : List κ} {d : Nat} {ch : κ}
    (h : l1.take (d + 1) = l2.take d ++ [ch]) (hd : d ≤ l2.length) : l1.take d = l2.take d := by
  have h1 : (l1.take (d + 1)).take d = l1.take d := by
    rw [List.take_take]; simp
  rw [← h1, h, List.take_append_eq_append_take]
  simp [List.length_take, Nat.min_eq_left hd]

mutual
/-- The traversal `dfs` offers the terminal nodes of the subtree, in visiting order, to
the selector; the cells of `path` below `depth` are left as they were. -/
theorem dfs_eq (pfx : List κ) (K : Int) : ∀ (n : TrieNode κ) (depth : Nat)
    (heap : List (Item κ)) (path : List κ), depth ≤ path.length →
    (dfs pfx K n depth (heap, path)).map Prod.fst
      = offerAll K heap ((words n).map (fun p => ⟨pfx ++ (path.take depth ++ p.1), p.2⟩)) ∧
    ∀ st, dfs pfx K n depth (heap, path) = some st →
      depth ≤ st.2.length ∧ st.2.take depth = path.take depth
  | .mk cs e f, depth, heap, path, hd => by
    rw [dfs, words, List.map_append, offerAll_append]
    by_cases he : e = true
    · simp only [he, if_true, List.map_cons, List.map_nil, List.append_nil, offerAll]
      cases ho : offer K heap ⟨pfx ++ List.take depth path, f⟩ with
      | none => simp
      | some heap' =>
        simp only [Option.bind]
        exact dfsChildren_eq pfx K cs depth heap' path hd
    · simp only [he, if_false, List.map_nil, offerAll, Option.bind]
      exact dfsChildren_eq pfx K cs depth heap path hd
/-- The loop over the children offers the terminal nodes below them in order. -/
theorem dfsChildren_eq (pfx : List κ) (K : Int) : ∀ (cs : List (κ × TrieNode κ)) (depth : Nat)
    (heap : List (Item κ)) (path : List κ), depth ≤ path.length →
    (dfsChildren pfx K cs depth (heap, path)).map Prod.fst
      = offerAll K heap
          ((wordsChildren cs).map (fun p => ⟨pfx ++ (path.take depth ++ p.1), p.2⟩)) ∧
    ∀ st, dfsChildren pfx K cs depth (heap, path) = some st →
      depth ≤ st.2.length ∧ st.2.take depth = path.take depth
  | [], depth, heap, path, hd => by
    simp only [dfsChildren, wordsChildren, List.map_nil, offerAll, Option.map_some']
    refine ⟨trivial, ?_⟩
    intro st hst
    cases hst
    exact ⟨hd, rfl⟩
  | (ch, nxt) :: rest, depth, heap, path, hd => by
    obtain ⟨hlen, htake⟩ := setPath_spec path depth ch hd
    obtain ⟨ih1, ih2⟩ := dfs_eq pfx K nxt (depth + 1) heap (setPath path depth ch) hlen
    rw [dfsChildren, wordsChildren, List.map_append, offerAll_append, List.map_map]
    have hitems : (words nxt).map ((fun p : List κ × Int =>
          (⟨pfx ++ (List.take depth path ++ p.1), p.2⟩ : Item κ)) ∘
          fun p => (ch :: p.1, p.2))
        = (words nxt).map (fun p =>
            ⟨pfx ++ (List.take (depth + 1) (setPath path depth ch) ++ p.1), p.2⟩) := by
      apply List.map_congr_left
      intro p _
      simp [htake]
    rw [hitems, ← ih1]
    cases hdfs : dfs pfx K nxt (depth + 1) (heap, setPath path depth ch) with
    | none => simp
    | some st' =>
      obtain ⟨h1, h2⟩ := ih2 st' hdfs
      have h3 : st'.2.take depth = path.take depth := take_of_take_succ (h2.trans htake) hd
      obtain ⟨ih3, ih4⟩ := dfsChildren_eq pfx K rest depth st'.1 st'.2 (by omega)
      simp only [Option.map_some', Option.bind]
      rw [h3] at ih3
      refine ⟨ih3, ?_⟩
      intro st hst
      obtain ⟨h5, h6⟩ := ih4 st hst
      exact ⟨h5, h6.trans h3⟩
end

end Trie

/-! ### The indexed words below a node -/

namespace Trie
variable {κ : Type} [DecidableEq κ]

theorem getNodeFrom_append : ∀ (p q : List κ) (n : TrieNode κ),
    getNodeFrom n (p ++ q) = (getNodeFrom n p).bind (fun m => getNodeFrom m q)
  | [], _, _ => rfl
  | ch :: p, q, n => by
    simp only [List.cons_append, getNodeFrom]
    cases TrieNode.getChild n.children ch with
    | none => rfl
    | some c => exact getNodeFrom_append p q c

theorem wfChildren_getChild : ∀ (cs : List (κ × TrieNode κ)) (ch : κ) (c : TrieNode κ),
    WFChildren cs → TrieNode.getChild cs ch = some c → WF c
  | [], _, _, _, h => by simp [TrieNode.getChild] at h
  | (k, n) :: rest, ch, c, hw, h => by
    simp only [WFChildren] at hw
    simp only [TrieNode.getChild] at h
    by_cases hk : k = ch
    · rw [if_pos hk] at h
      cases h
      exact hw.2.1
    · rw [if_neg hk] at h
      exact wfChildren_getChild rest ch c hw.2.2 h

theorem wf_getNodeFrom : ∀ (p : List κ) (n m : TrieNode κ),
    WF n → getNodeFrom n p = some m → WF m
  | [], n, m, hw, h => by
    simp only [getNodeFrom, Option.some.injEq] at h
    rw [← h]; exact hw
  | ch :: p, .mk cs e f, m, hw, h => by
    simp only [getNodeFrom, TrieNode.children] at h
    cases hc : TrieNode.getChild cs ch with
    | none => simp [hc] at h
    | some c =>
      rw [hc] at h
      rw [WF] at hw
      exact wf_getNodeFrom p c m (wfChildren_getChild cs ch c hw hc) h

theorem wfChildren_setChild : ∀ (cs : List (κ × TrieNode κ)) (ch : κ) (n' : TrieNode κ),
    WFChildren cs → WF n' → WFChildren (TrieNode.setChild cs ch n')
  | [], _, _, _, _ => by simp [TrieNode.setChild, WFChildren]
  | (k, n) :: rest, ch, n', hw, hn => by
    simp only [WFChildren] at hw
    simp only [TrieNode.setChild]
    by_cases hk : k = ch
    · rw [if_pos hk]
      simp only [WFChildren]
      exact ⟨hw.1, hn, hw.2.2⟩
    · rw [if_neg hk]
      simp only [WFChildren]
      refine ⟨?_, hw.2.1, wfChildren_setChild rest ch n' hw.2.2 hn⟩
      rw [TrieNode.getChild_setChild_other rest ch k n' hk]
      exact hw.1

theorem wfChildren_append : ∀ (cs : List (κ × TrieNode κ)) (ch : κ) (n' : TrieNode κ),
    WFChildren cs → WF n' → TrieNode.getChild cs ch = none → WFChildren (cs ++ [(ch, n')])
  | [], _, _, _, hn, _ => by
    simp only [List.nil_append, WFChildren, TrieNode.getChild]
    exact ⟨trivial, hn, trivial⟩
  | (k, n) :: rest, ch, n', hw, hn, hc => by
    simp only [WFChildren] at hw
    simp only [TrieNode.getChild] at hc
    by_cases hk : k = ch
    · simp [hk] at hc
    · rw [if_neg hk] at hc
      have ih := wfChildren_append rest ch n' hw.2.2 hn hc
      simp only [List.cons_append, WFChildren, List.append_eq]
      refine ⟨?_, hw.2.1, ih⟩
      rw [TrieNode.getChild_append_other rest ch k n' hk]
      exact hw.1

theorem wf_empty : WF (TrieNode.empty : TrieNode κ) := by
  simp [TrieNode.empty, WF, WFChildren]

theorem wf_insertAt : ∀ (w : List κ) (n : TrieNode κ) (f : Int), WF n → WF (insertAt n w f)
  | [], .mk cs e fr, f, hw => by
    simp only [insertAt, WF] at hw ⊢
    exact hw
  | ch :: rest, .mk cs e fr, f, hw => by
    rw [WF] at hw
    cases hc : TrieNode.getChild cs ch with
    | some child =>
      simp only [insertAt, hc, WF]
      exact wfChildren_setChild cs ch _ hw
        (wf_insertAt rest child f (wfChildren_getChild cs ch child hw hc))
    | none =>
      simp only [insertAt, hc, WF]
      exact wfChildren_append cs ch _ hw (wf_insertAt rest TrieNode.empty f wf_empty) hc

theorem wf_of_built {t : Trie κ} (h : Built t) : WF t.root := by
  induction h with
  | empty => exact wf_empty
  | insert t w f _ ih => exact wf_insertAt w t.root f ih

theorem wordsChildren_head : ∀ (cs : List (κ × TrieNode κ)) (q : List κ) (f : Int),
    (q, f) ∈ wordsChildren cs → ∃ ch p, q = ch :: p ∧ TrieNode.getChild cs ch ≠ none
  | [], q, f, h => by simp [wordsChildren] at h
  | (k, n) :: rest, q, f, h => by
    rw [wordsChildren] at h
    rcases List.mem_append.1 h with h1 | h1
    · obtain ⟨p, _, hp⟩ := List.mem_map.1 h1
      simp only [Prod.mk.injEq] at hp
      exact ⟨k, p.1, hp.1.symm, by simp [TrieNode.getChild]⟩
    · obtain ⟨ch, p, hq, hc⟩ := wordsChildren_head rest q f h1
      refine ⟨ch, p, hq, ?_⟩
      simp only [TrieNode.getChild]
      by_cases hk : k = ch
      · simp [hk]
      · rw [if_neg hk]; exact hc

mutual
theorem mem_words_complete : ∀ (n : TrieNode κ) (p : List κ) (m : TrieNode κ),
    getNodeFrom n p = some m → m.isEnd = true → (p, m.frequency) ∈ words n
  | .mk cs e f, [], m, h, he => by
    simp only [getNodeFrom, Option.some.injEq] at h
    subst h
    simp only [TrieNode.isEnd] at he
    simp [words, he, TrieNode.frequency]
  | .mk cs e f, ch :: p, m, h, he => by
    simp only [getNodeFrom, TrieNode.children] at h
    rw [words]
    exact List.mem_append_right _ (mem_wordsChildren_complete cs ch p m h he)
theorem mem_wordsChildren_complete : ∀ (cs : List (κ × TrieNode κ)) (ch : κ) (p : List κ)
    (m : TrieNode κ),
    (match TrieNode.getChild cs ch with
      | none => none
      | some child => getNodeFrom child p) = some m →
    m.isEnd = true → (ch :: p, m.frequency) ∈ wordsChildren cs
  | [], ch, p, m, h, _ => by simp [TrieNode.getChild] at h
  | (k, n) :: rest, ch, p, m, h, he => by
    rw [wordsChildren]
    simp only [TrieNode.getChild] at h
    by_cases hk : k = ch
    · rw [if_pos hk] at h
      subst hk
      exact List.mem_append_left _
        (List.mem_map.2 ⟨(p, m.frequency), mem_words_complete n p m h he, rfl⟩)
    · rw [if_neg hk] at h
      exact List.mem_append_right _ (mem_wordsChildren_complete rest ch p m h he)
end

mutual
theorem mem_words_sound : ∀ (n : TrieNode κ) (q : List κ) (f : Int), WF n →
    (q, f) ∈ words n →
    ∃ m, getNodeFrom n q = some m ∧ m.isEnd = true ∧ m.frequency = f
  | .mk cs e fr, q, f, hw, h => by
    rw [words] at h
    rw [WF] at hw
    rcases List.mem_append.1 h with h1 | h1
    · by_cases he : e = true
      · simp only [he, if_true, List.mem_singleton, Prod.mk.injEq] at h1
        obtain ⟨hq, hf⟩ := h1
        subst hq
        exact ⟨_, rfl, he, hf.symm⟩
      · simp [he] at h1
    · obtain ⟨ch, p, c, hq, hc, m, hm⟩ := mem_wordsChildren_sound cs q f hw h1
      refine ⟨m, ?_, hm.2⟩
      rw [hq]
      simp only [getNodeFrom, TrieNode.children, hc]
      exact hm.1
theorem mem_wordsChildren_sound : ∀ (cs : List (κ × TrieNode κ)) (q : List κ) (f : Int),
    WFChildren cs → (q, f) ∈ wordsChildren cs →
    ∃ ch p c, q = ch :: p ∧ TrieNode.getChild cs ch = some c ∧
      ∃ m, getNodeFrom c p = some m ∧ m.isEnd = true ∧ m.frequency = f
  | [], q, f, _, h => by simp [wordsChildren] at h
  | (k, n) :: rest, q, f, hw, h => by
    rw [wordsChildren] at h
    simp only [WFChildren] at hw
    rcases List.mem_append.1 h with h1 | h1
    · obtain ⟨p, hp, hpq⟩ := List.mem_map.1 h1
      simp only [Prod.mk.injEq] at hpq
      obtain ⟨m, hm⟩ := mem_words_sound n p.1 p.2 hw.2.1 hp
      refine ⟨k, p.1, n, hpq.1.symm, by simp [TrieNode.getChild], m, hm.1, hm.2.1, ?_⟩
      rw [hm.2.2, hpq.2]
    · obtain ⟨ch, p, c, hq, hc, hm⟩ := mem_wordsChildren_sound rest q f hw.2.2 h1
      refine ⟨ch, p, c, hq, ?_, hm⟩
      simp only [TrieNode.getChild]
      by_cases hk : k = ch
      · rw [hk] at hw
        rw [hw.1] at hc
        cases hc
      · rw [if_neg hk]; exact hc
end

mutual
theorem nodup_words : ∀ (n : TrieNode κ), WF n → ((words n).map Prod.fst).Nodup
  | .mk cs e fr, hw => by
    rw [WF] at hw
    rw [words, List.map_append, List.nodup_append]
    refine ⟨?_, nodup_wordsChildren cs hw, ?_⟩
    · by_cases he : e = true <;> simp [he]
    · intro q hq1 hq2
      obtain ⟨⟨q', f⟩, hm, hq'⟩ := List.mem_map.1 hq2
      simp only at hq'
      subst hq'
      obtain ⟨ch, p, hqq, _⟩ := wordsChildren_head cs q' f hm
      by_cases he : e = true
      · simp [he] at hq1
        rw [hq1] at hqq
        cases hqq
      · simp [he] at hq1
theorem nodup_wordsChildren : ∀ (cs : List (κ × TrieNode κ)), WFChildren cs →
    ((wordsChildren cs).map Prod.fst).Nodup
  | [], _ => by simp [wordsChildren]
  | (k, n) :: rest, hw => by
    simp only [WFChildren] at hw
    rw [wordsChildren, List.map_append, List.nodup_append, List.map_map]
    refine ⟨?_, nodup_wordsChildren rest hw.2.2, ?_⟩
    · have h1 := nodup_words n hw.2.1
      have h2 : List.map (Prod.fst ∘ fun p : List κ × Int => (k :: p.1, p.2)) (words n)
          = List.map (fun q => k :: q) (List.map Prod.fst (words n)) := by
        rw [List.map_map]; rfl
      rw [h2]
      exact h1.map (fun a b hab => by simpa using hab)
    · intro q hq1 hq2
      obtain ⟨p, _, hp⟩ := List.mem_map.1 hq1
      obtain ⟨⟨q', f⟩, hm, hq'⟩ := List.mem_map.1 hq2
      simp only at hq'
      subst hq'
      obtain ⟨ch, p', hqq, hc⟩ := wordsChildren_head rest q' f hm
      simp only [Function.comp] at hp
      rw [hqq] at hp
      simp only [List.cons.injEq] at hp
      rw [← hp.1] at hc
      exact hc hw.1
end

end Trie

/-! ### The result of `autocomplete` -/

namespace Trie
variable {κ : Type}

theorem sortDesc_perm (l : List (Item κ)) : List.Perm (sortDesc l) l :=
  List.perm_insertionSort _ l

theorem sortDesc_sorted (l : List (Item κ)) :
    List.Sorted (fun a b : Item κ => b.freq ≤ a.freq) (sortDesc l) := by
  haveI : IsTotal (Item κ) (fun a b => b.freq ≤ a.freq) := ⟨fun a b => le_total b.freq a.freq⟩
  haveI : IsTrans (Item κ) (fun a b => b.freq ≤ a.freq) :=
    ⟨fun a b c h1 h2 => le_trans h2 h1⟩
  exact List.sorted_insertionSort _ l

/-- Whatever `K` is, a successful `offer` retains a sub-multiset of the old items and the
new one. -/
theorem offer_subperm (K : Int) (heap : List (Item κ)) (item : Item κ) (heap' : List (Item κ))
    (h : offer K heap item = some heap') : List.Subperm heap' (heap ++ [item]) := by
  unfold offer at h
  by_cases hlt : (MinHeap.size heap : Int) < K
  · rw [if_pos hlt] at h
    cases h
    exact (MinHeap.minPush_spec heap item).1.subperm
  · rw [if_neg hlt] at h
    cases hd : heap with
    | nil => simp [hd, MinHeap.peek] at h
    | cons m tl =>
      rw [hd] at h
      have hpeek : MinHeap.peek (m :: tl) = some m := by simp [MinHeap.peek]
      rw [hpeek] at h
      dsimp only at h
      by_cases hf : m.freq < item.freq
      · rw [if_pos hf] at h
        cases h
        have h1 := (MinHeap.minPush_spec (MinHeap.pop (m :: tl)).2 item).1
        have h2 := (MinHeap.minPop_spec m tl).2.1
        have h3 : List.Subperm (MinHeap.pop (m :: tl)).2 (m :: tl) :=
          (List.sublist_cons_self m _).subperm.trans h2.subperm
        exact h1.subperm.trans ((List.subperm_append_right [item]).2 h3)
      · rw [if_neg hf] at h
        cases h
        exact (List.sublist_append_left _ _).subperm

theorem offerAll_subperm (K : Int) : ∀ (items heap heap' : List (Item κ)),
    offerAll K heap items = some heap' → List.Subperm heap' (heap ++ items)
  | [], heap, heap', h => by
    simp only [offerAll, Option.some.injEq] at h
    rw [h]; simp
    exact List.Subperm.refl _
  | x :: xs, heap, heap', h => by
    rw [offerAll] at h
    cases ho : offer K heap x with
    | none => simp [ho] at h
    | some h1 =>
      rw [ho] at h
      have s1 := offerAll_subperm K xs h1 heap' h
      have s2 := offer_subperm K heap x h1 ho
      have s3 : List.Subperm (h1 ++ xs) ((heap ++ [x]) ++ xs) :=
        (List.subperm_append_right xs).2 s2
      simpa using s1.trans s3

end Trie

namespace Trie
variable {κ : Type} [DecidableEq κ]

/-- The items `autocomplete` offers to the selector: one per terminal node below the node
of the prefix, in visiting order. -/
theorem autocomplete_eq (t : Trie κ) (pfx : List κ) (K : Int) (node : TrieNode κ)
    (h : t.getNode pfx = some node) :
    t.autocomplete pfx K
      = (offerAll K [] ((words node).map (fun p => (⟨pfx ++ p.1, p.2⟩ : Item κ)))).map
          (fun heap => (sortDesc heap).map Item.word) := by
  have h1 := (dfs_eq pfx K node 0 [] [] (le_refl _)).1
  simp only [List.take_nil, List.nil_append] at h1
  unfold autocomplete
  rw [h]
  dsimp only
  rw [← h1]
  cases dfs pfx K node 0 ([], []) with
  | none => rfl
  | some st => rfl

theorem items_spec (t : Trie κ) (ht : Built t) (pfx : List κ) (node : TrieNode κ)
    (h : t.getNode pfx = some node) :
    (((words node).map (fun p => (⟨pfx ++ p.1, p.2⟩ : Item κ))).map Item.word).Nodup ∧
    (∀ it ∈ (words node).map (fun p => (⟨pfx ++ p.1, p.2⟩ : Item κ)),
      t.indexed it.word = true ∧ (∃ s, it.word = pfx ++ s) ∧ it.freq = t.freqAt it.word) ∧
    (∀ w, t.indexed w = true → (∃ s, w = pfx ++ s) →
      ∃ it ∈ (words node).map (fun p => (⟨pfx ++ p.1, p.2⟩ : Item κ)), it.word = w) := by
  have hwf : WF node := wf_getNodeFrom pfx t.root node (wf_of_built ht) h
  have hget : ∀ s, t.getNode (pfx ++ s) = getNodeFrom node s := by
    intro s
    unfold getNode at h ⊢
    rw [getNodeFrom_append, h]
    rfl
  refine ⟨?_, ?_, ?_⟩
  · have h1 : ((words node).map (fun p => (⟨pfx ++ p.1, p.2⟩ : Item κ))).map Item.word
        = ((words node).map Prod.fst).map (fun s => pfx ++ s) := by
      rw [List.map_map, List.map_map]; rfl
    rw [h1]
    exact (nodup_words node hwf).map (fun a b hab => List.append_cancel_left hab)
  · intro it hit
    obtain ⟨p, hp, hpe⟩ := List.mem_map.1 hit
    obtain ⟨m, hm1, hm2, hm3⟩ := mem_words_sound node p.1 p.2 hwf hp
    subst hpe
    refine ⟨?_, ⟨p.1, rfl⟩, ?_⟩
    · simp only [indexed, hget, hm1, hm2]
    · simp only [freqAt, hget, hm1, hm3]
  · intro w hw ⟨s, hs⟩
    subst hs
    simp only [indexed, hget] at hw
    cases hm : getNodeFrom node s with
    | none => simp [hm] at hw
    | some m =>
      rw [hm] at hw
      simp only at hw
      exact ⟨⟨pfx ++ s, m.frequency⟩,
        List.mem_map.2 ⟨(s, m.frequency), mem_words_complete node s m hm hw, rfl⟩, rfl⟩

/-- What `autocomplete` computes on a built trie for `K ≥ 1`: the candidate `items` are
the indexed words with the prefix, each once, with their accumulated frequencies; the
selector retains `heap` and discards `disc`; the result is `heap` sorted. -/
theorem autocomplete_core (t : Trie κ) (ht : Built t) (pfx : List κ) (K : Int) (hK : 1 ≤ K) :
    ∃ items heap disc : List (Item κ),
      t.autocomplete pfx K = some ((sortDesc heap).map Item.word) ∧
      List.Perm (heap ++ disc) items ∧
      (heap.length : Int) = min K items.length ∧
      (∀ r ∈ heap, ∀ d ∈ disc, d.freq ≤ r.freq) ∧
      (items.map Item.word).Nodup ∧
      (∀ it ∈ items,
        t.indexed it.word = true ∧ (∃ s, it.word = pfx ++ s) ∧ it.freq = t.freqAt it.word) ∧
      (∀ w, t.indexed w = true → (∃ s, w = pfx ++ s) → ∃ it ∈ items, it.word = w) := by
  cases h : t.getNode pfx with
  | none =>
    refine ⟨[], [], [], ?_, by simp, by simp; omega, by simp, by simp, by simp, ?_⟩
    · unfold autocomplete
      rw [h]
      rfl
    · intro w hw ⟨s, hs⟩
      subst hs
      unfold getNode at h
      simp only [indexed, getNode, getNodeFrom_append, h, Option.bind] at hw
      cases hw
  | some node =>
    obtain ⟨heap, disc, ho, hinv, hp, hl⟩ := offerAll_spec K hK
      ((words node).map (fun p => (⟨pfx ++ p.1, p.2⟩ : Item κ))) [] [] (selInv_nil K hK)
    obtain ⟨h1, h2, h3⟩ := items_spec t ht pfx node h
    refine ⟨_, heap, disc, ?_, by simpa using hp, by simpa using hl, hinv.2.2.2, h1, h2, h3⟩
    rw [autocomplete_eq t pfx K node h, ho]
    rfl

/-- Without any assumption on `K`, a result of `autocomplete` on a built trie has no
repeated word. -/
theorem autocomplete_nodup (t : Trie κ) (ht : Built t) (pfx : List κ) (K : Int)
    (res : List (List κ)) (h : t.autocomplete pfx K = some res) : res.Nodup := by
  cases hn : t.getNode pfx with
  | none =>
    unfold autocomplete at h
    rw [hn] at h
    cases h
    exact List.nodup_nil
  | some node =>
    rw [autocomplete_eq t pfx K node hn] at h
    cases ho : offerAll K [] ((words node).map (fun p => (⟨pfx ++ p.1, p.2⟩ : Item κ))) with
    | none => simp [ho] at h
    | some heap =>
      rw [ho] at h
      simp only [Option.map_some', Option.some.injEq] at h
      rw [← h]
      have hs := offerAll_subperm K _ [] heap ho
      simp only [List.nil_append] at hs
      obtain ⟨l, hl1, hl2⟩ := (sortDesc_perm heap).subperm.trans hs
      have hnd := ((items_spec t ht pfx node hn).1).sublist (hl2.map Item.word)
      exact ((hl1.map Item.word).nodup_iff).1 hnd

end Trie

namespace Trie

theorem built_foldl (l : List (String × Int)) : ∀ (t : Trie Char), Built t →
    Built (l.foldl (fun t x => t.insert x.1.toList x.2) t) := by
  induction l with
  | nil => intro t h; exact h
  | cons x l ih => intro t h; exact ih _ (Built.insert t _ _ h)

end Trie

theorem seedTrie_built : Trie.Built seedTrie :=
  Trie.built_foldl seed Trie.empty Trie.Built.empty

/-! ### Claims on `autocomplete` -/

/-- Claim C3. For every trie built by `insert` calls, every prefix and every `K ≥ 1`: with
`S` the (finite) set of indexed words having the prefix as a literal prefix,
`autocomplete(prefix, K)` returns exactly `min(K, |S|)` words, and every word of `S` that
is not returned has an accumulated frequency less than or equal to that of every returned
word. With the empty prefix `S` is the whole vocabulary. -/
theorem C3_autocomplete_top_K {κ : Type} [DecidableEq κ] (t : Trie κ) (ht : Trie.Built t)
    (pfx : List κ) (K : Int) (hK : 1 ≤ K) :
    ∃ (S : Finset (List κ)) (res : List (List κ)),
      (∀ w, w ∈ S ↔ (t.indexed w = true ∧ ∃ s, w = pfx ++ s)) ∧
      t.autocomplete pfx K = some res ∧
      (res.length : Int) = min K S.card ∧
      ∀ w ∈ S, w ∉ res → ∀ r ∈ res, t.freqAt w ≤ t.freqAt r := by
  obtain ⟨items, heap, disc, hres, hperm, hlen, hge, hnd, hsound, hcomplete⟩ :=
    Trie.autocomplete_core t ht pfx K hK
  have hmemS : ∀ w, w ∈ (items.map Item.word).toFinset ↔
      (t.indexed w = true ∧ ∃ s, w = pfx ++ s) := by
    intro w
    rw [List.mem_toFinset, List.mem_map]
    constructor
    · rintro ⟨it, hit, rfl⟩
      exact ⟨(hsound it hit).1, (hsound it hit).2.1⟩
    · rintro ⟨h1, h2⟩
      exact hcomplete w h1 h2
  refine ⟨(items.map Item.word).toFinset, _, hmemS, hres, ?_, ?_⟩
  · rw [List.toFinset_card_of_nodup hnd]
    simp only [List.length_map, (Trie.sortDesc_perm heap).length_eq]
    exact hlen
  · intro w hw hnot r hr
    rw [List.mem_toFinset, List.mem_map] at hw
    obtain ⟨it, hit, rfl⟩ := hw
    obtain ⟨it', hit', rfl⟩ := List.mem_map.1 hr
    have hh' : it' ∈ heap := (Trie.sortDesc_perm heap).mem_iff.1 hit'
    have hitems' : it' ∈ items := hperm.mem_iff.1 (List.mem_append_left _ hh')
    have hd : it ∈ disc := by
      rcases List.mem_append.1 (hperm.mem_iff.2 hit) with h1 | h1
      · exact absurd (List.mem_map.2 ⟨it, (Trie.sortDesc_perm heap).mem_iff.2 h1, rfl⟩) hnot
      · exact h1
    rw [← (hsound it hit).2.2, ← (hsound it' hitems').2.2]
    exact hge it' hh' it hd

/-- Witness of C3 on the reference vocabulary with prefix `b` and `K = 5`. -/
theorem C3_autocomplete_top_K_witness :
    Trie.Built seedTrie ∧ (1 : Int) ≤ 5 ∧
    ∃ (S : Finset (List Char)) (res : List (List Char)),
      (∀ w, w ∈ S ↔ (seedTrie.indexed w = true ∧ ∃ s, w = "b".toList ++ s)) ∧
      seedTrie.autocomplete "b".toList 5 = some res ∧
      (res.length : Int) = min (5 : Int) S.card ∧
      ∀ w ∈ S, w ∉ res → ∀ r ∈ res, seedTrie.freqAt w ≤ seedTrie.freqAt r :=
  ⟨seedTrie_built, by decide,
    C3_autocomplete_top_K seedTrie seedTrie_built "b".toList 5 (by decide)⟩

/-- Claim C4. For every trie built by `insert` calls, every prefix and every `K ≥ 1`, every
word returned by `autocomplete(prefix, K)` is an indexed word having the prefix as a
literal prefix, and no word occurs twice in the result. -/
theorem C4_autocomplete_sound {κ : Type} [DecidableEq κ] (t : Trie κ) (ht : Trie.Built t)
    (pfx : List κ) (K : Int) (hK : 1 ≤ K) :
    ∃ res, t.autocomplete pfx K = some res ∧
      (∀ w ∈ res, t.indexed w = true ∧ ∃ s, w = pfx ++ s) ∧ res.Nodup := by
  obtain ⟨items, heap, disc, hres, hperm, _, _, _, hsound, _⟩ :=
    Trie.autocomplete_core t ht pfx K hK
  refine ⟨_, hres, ?_, Trie.autocomplete_nodup t ht pfx K _ hres⟩
  intro w hw
  obtain ⟨it, hit, rfl⟩ := List.mem_map.1 hw
  have hitems : it ∈ items :=
    hperm.mem_iff.1 (List.mem_append_left _ ((Trie.sortDesc_perm heap).mem_iff.1 hit))
  exact ⟨(hsound it hitems).1, (hsound it hitems).2.1⟩

/-- Witness of C4 on the reference vocabulary with prefix `app` and `K = 5`. -/
theorem C4_autocomplete_sound_witness :
    Trie.Built seedTrie ∧ (1 : Int) ≤ 5 ∧
    ∃ res, seedTrie.autocomplete "app".toList 5 = some res ∧
      (∀ w ∈ res, seedTrie.indexed w = true ∧ ∃ s, w = "app".toList ++ s) ∧ res.Nodup :=
  ⟨seedTrie_built, by decide,
    C4_autocomplete_sound seedTrie seedTrie_built "app".toList 5 (by decide)⟩

/-- Claim C5. For every trie built by `insert` calls, every prefix and every `K ≥ 1`, the
words returned by `autocomplete(prefix, K)` are in non-increasing order of accumulated
frequency: for positions `i < j` of the result, the frequency of the word at `j` is at
most that of the word at `i`. -/
theorem C5_autocomplete_sorted {κ : Type} [DecidableEq κ] (t : Trie κ) (ht : Trie.Built t)
    (pfx : List κ) (K : Int) (hK : 1 ≤ K) :
    ∃ res, t.autocomplete pfx K = some res ∧
      ∀ (i j : Nat) (a b : List κ), i < j → res[i]? = some a → res[j]? = some b →
        t.freqAt b ≤ t.freqAt a := by
  obtain ⟨items, heap, disc, hres, hperm, _, _, _, hsound, _⟩ :=
    Trie.autocomplete_core t ht pfx K hK
  refine ⟨_, hres, ?_⟩
  have hpw : List.Pairwise (fun a b : List κ => t.freqAt b ≤ t.freqAt a)
      ((Trie.sortDesc heap).map Item.word) := by
    rw [List.pairwise_map]
    refine List.Pairwise.imp_of_mem ?_ (Trie.sortDesc_sorted heap)
    intro a b ha hb hab
    have hia : a ∈ items :=
      hperm.mem_iff.1 (List.mem_append_left _ ((Trie.sortDesc_perm heap).mem_iff.1 ha))
    have hib : b ∈ items :=
      hperm.mem_iff.1 (List.mem_append_left _ ((Trie.sortDesc_perm heap).mem_iff.1 hb))
    rw [← (hsound a hia).2.2, ← (hsound b hib).2.2]
    exact hab
  intro i j a b hij ha hb
  obtain ⟨hi, rfl⟩ := List.getElem?_eq_some.1 ha
  obtain ⟨hj, rfl⟩ := List.getElem?_eq_some.1 hb
  exact List.pairwise_iff_getElem.1 hpw i j hi hj hij

/-- Witness of C5 on the reference vocabulary with prefix `b` and `K = 3`. -/
theorem C5_autocomplete_sorted_witness :
    Trie.Built seedTrie ∧ (1 : Int) ≤ 3 ∧
    ∃ res, seedTrie.autocomplete "b".toList 3 = some res ∧
      ∀ (i j : Nat) (a b : List Char), i < j → res[i]? = some a → res[j]? = some b →
        seedTrie.freqAt b ≤ seedTrie.freqAt a :=
  ⟨seedTrie_built, by decide,
    C5_autocomplete_sorted seedTrie seedTrie_built "b".toList 3 (by decide)⟩

/-! ### Claims on the demonstration and on empty structures -/

/-- Claim C13. On the trie obtained by inserting the reference vocabulary in order,
`autocomplete("app", 5)` is `["apple", "application"]` and `autocomplete("b", 5)` is
`["book", "bee", "bat", "banana", "ball"]`. -/
theorem C13_reference_vocabulary :
    seedTrie = (((((((Trie.empty.insert "apple".toList 10).insert "application".toList 5).insert
        "banana".toList 3).insert "book".toList 8).insert "binary".toList 1).insert
        "bee".toList 7).insert "bat".toList 4).insert "ball".toList 2 ∧
    seedTrie.autocomplete "app".toList 5 = some ["apple".toList, "application".toList] ∧
    seedTrie.autocomplete "b".toList 5
      = some ["book".toList, "bee".toList, "bat".toList, "banana".toList, "ball".toList] :=
  ⟨rfl, by decide, by decide⟩

/-- Claim C14. Operations on empty structures return a sentinel and raise nothing: on a
queue without entries `dequeue()` returns `null` and leaves the queue as it was (no
entries, same counter); on an empty heap `pop()` and `peek()` return `undefined` and the
heap stays empty. -/
theorem C14_empty_structures :
    (∀ (ρ : Type) (s : Nat),
      (PriorityQueue.dequeue (⟨[], s⟩ : PriorityQueue ρ)) = (none, ⟨[], s⟩)) ∧
    (∀ (ρ : Type) (q : PriorityQueue ρ), q.isEmpty = true → q.dequeue = (none, q)) ∧
    (∀ (κ : Type), MinHeap.pop ([] : List (Item κ)) = (none, [])) ∧
    (∀ (κ : Type), MinHeap.peek ([] : List (Item κ)) = none) := by
  refine ⟨fun _ _ => rfl, ?_, fun _ => rfl, fun _ => rfl⟩
  intro ρ q hq
  have hd : q.data = [] := by
    apply List.eq_nil_of_length_eq_zero
    simpa [PriorityQueue.isEmpty, PriorityQueue.size] using hq
  exact PriorityQueue.dequeue_nil hd

/-- Witness of C14 on the fresh queue. -/
theorem C14_empty_structures_witness :
    (PriorityQueue.empty : PriorityQueue String).isEmpty = true ∧
    (PriorityQueue.empty : PriorityQueue String).dequeue = (none, PriorityQueue.empty) :=
  ⟨rfl, C14_empty_structures.2.1 String PriorityQueue.empty rfl⟩

/-! ### The frame of `insert` -/

namespace Trie
variable {κ : Type} [DecidableEq κ]

theorem indexed_eq (t : Trie κ) (w : List κ) : t.indexed w = endFrom t.root w := rfl

theorem freqAt_eq (t : Trie κ) (w : List κ) : t.freqAt w = freqFrom t.root w := rfl

theorem endFrom_nil (n : TrieNode κ) : endFrom n [] = n.isEnd := rfl

theorem freqFrom_nil (n : TrieNode κ) : freqFrom n [] = n.frequency := rfl

theorem endFrom_cons (n : TrieNode κ) (ch : κ) (rest : List κ) :
    endFrom n (ch :: rest)
      = (TrieNode.getChild n.children ch).elim false (fun c => endFrom c rest) := by
  unfold endFrom
  simp only [getNodeFrom]
  cases TrieNode.getChild n.children ch <;> rfl

theorem freqFrom_cons (n : TrieNode κ) (ch : κ) (rest : List κ) :
    freqFrom n (ch :: rest)
      = (TrieNode.getChild n.children ch).elim 0 (fun c => freqFrom c rest) := by
  unfold freqFrom
  simp only [getNodeFrom]
  cases TrieNode.getChild n.children ch <;> rfl

theorem from_empty (p : List κ) :
    endFrom (TrieNode.empty : TrieNode κ) p = false ∧
    freqFrom (TrieNode.empty : TrieNode κ) p = 0 := by
  cases p with
  | nil => exact ⟨rfl, rfl⟩
  | cons ch rest => exact ⟨rfl, rfl⟩

/-- The walk of `insert(w, f)` leaves the terminal flag and the frequency at the end of
every other path as they were (absent and freshly created nodes counting as not terminal
with frequency 0). -/
theorem frame_insertAt : ∀ (w : List κ) (n : TrieNode κ) (f : Int) (p : List κ), p ≠ w →
    endFrom (insertAt n w f) p = endFrom n p ∧ freqFrom (insertAt n w f) p = freqFrom n p
  | [], .mk cs e fr, f, [], h => absurd rfl h
  | [], .mk cs e fr, f, ch :: rest, _ => by
    simp only [insertAt, endFrom_cons, freqFrom_cons, TrieNode.children]
    exact ⟨trivial, trivial⟩
  | c :: ws, .mk cs e fr, f, [], _ => by
    cases hc : TrieNode.getChild cs c <;>
      simp only [insertAt, hc, endFrom_nil, freqFrom_nil, TrieNode.isEnd, TrieNode.frequency] <;>
      exact ⟨trivial, trivial⟩
  | c :: ws, .mk cs e fr, f, ch :: rest, h => by
    by_cases hch : ch = c
    · subst hch
      have hr : rest ≠ ws := fun e => h (by rw [e])
      cases hc : TrieNode.getChild cs ch with
      | some child =>
        have ih := frame_insertAt ws child f rest hr
        simp only [insertAt, hc, endFrom_cons, freqFrom_cons, TrieNode.children,
          TrieNode.getChild_setChild_self cs ch child _ hc, Option.elim]
        exact ih
      | none =>
        have ih := frame_insertAt ws TrieNode.empty f rest hr
        rw [(from_empty rest).1, (from_empty rest).2] at ih
        simp only [insertAt, hc, endFrom_cons, freqFrom_cons, TrieNode.children,
          TrieNode.getChild_append_new cs ch _ hc, Option.elim]
        exact ih
    · cases hc : TrieNode.getChild cs c with
      | some child =>
        simp only [insertAt, hc, endFrom_cons, freqFrom_cons, TrieNode.children,
          TrieNode.getChild_setChild_other cs c ch _ hch]
        exact ⟨trivial, trivial⟩
      | none =>
        simp only [insertAt, hc, endFrom_cons, freqFrom_cons, TrieNode.children,
          TrieNode.getChild_append_other cs c ch _ hch]
        exact ⟨trivial, trivial⟩

/-- After `insert(w, f)` the word `w` is indexed and its frequency is the sum, as
Numbers, of the previous one and `f`. -/
theorem insert_self (t : Trie κ) (w : List κ) (f : Int) :
    (t.insert w f).indexed w = true ∧
    (t.insert w f).freqAt w = JSNumber.add (t.freqAt w) f := by
  obtain ⟨m, h1, h2, h3⟩ := getNodeFrom_insertAt_self w t.root f
  have h4 : (match getNodeFrom t.root w with
      | some m0 => m0.frequency
      | none => 0) = t.freqAt w := by
    unfold freqAt getNode
    cases getNodeFrom t.root w <;> rfl
  rw [h4] at h3
  constructor
  · show endFrom (insertAt t.root w f) w = true
    unfold endFrom
    rw [h1]
    exact h2
  · show freqFrom (insertAt t.root w f) w = JSNumber.add (t.freqAt w) f
    unfold freqFrom
    rw [h1]
    exact h3

theorem insert_other (t : Trie κ) (w : List κ) (f : Int) (p : List κ) (h : p ≠ w) :
    (t.insert w f).indexed p = t.indexed p ∧ (t.insert w f).freqAt p = t.freqAt p :=
  frame_insertAt w t.root f p h

/-- In a built trie a node that is not terminal has frequency 0. -/
theorem freqAt_of_not_indexed {t : Trie κ} (ht : Built t) :
    ∀ w, t.indexed w = false → t.freqAt w = 0 := by
  induction ht with
  | empty =>
    intro w _
    exact (from_empty w).2
  | insert t w f _ ih =>
    intro p hp
    by_cases hpw : p = w
    · rw [hpw, (insert_self t w f).1] at hp
      cases hp
    · rw [(insert_other t w f p hpw).1] at hp
      rw [(insert_other t w f p hpw).2]
      exact ih p hp

end Trie

/-! ### Claims on the frequencies stored by `insert` -/

namespace Trie
variable {κ : Type} [DecidableEq κ]

/-- Two successive walks of `insert` for the same word equal the single walk with the sum
of the frequencies, provided the two additions at the final node give what the single
addition gives. -/
theorem insertAt_insertAt : ∀ (w : List κ) (n : TrieNode κ) (f1 f2 : Int),
    JSNumber.add (JSNumber.add (freqFrom n w) f1) f2 = JSNumber.add (freqFrom n w) (f1 + f2) →
    insertAt (insertAt n w f1) w f2 = insertAt n w (f1 + f2)
  | [], .mk cs e f, f1, f2, h => by
    rw [freqFrom_nil] at h
    simp only [TrieNode.frequency] at h
    simp only [insertAt, h]
  | ch :: rest, .mk cs e f, f1, f2, h => by
    rw [freqFrom_cons] at h
    simp only [TrieNode.children] at h
    cases hc : TrieNode.getChild cs ch with
    | some child =>
      rw [hc] at h
      simp only [Option.elim] at h
      simp only [insertAt, hc]
      rw [TrieNode.getChild_setChild_self cs ch child _ hc]
      simp only [TrieNode.setChild_setChild, insertAt_insertAt rest child f1 f2 h]
    | none =>
      rw [hc] at h
      simp only [Option.elim] at h
      rw [← (from_empty rest).2] at h
      simp only [insertAt, hc]
      rw [TrieNode.getChild_append_new cs ch _ hc]
      simp only [TrieNode.setChild_append_new cs ch _ _ hc,
        insertAt_insertAt rest TrieNode.empty f1 f2 h]

end Trie

namespace Trie
variable {κ : Type} [DecidableEq κ]

/-- Non-negative frequency arguments leave every stored frequency non-negative. -/
theorem freqAt_nonneg {t : Trie κ} (ht : BuiltNonneg t) : ∀ p, 0 ≤ t.freqAt p := by
  induction ht with
  | empty =>
    intro p
    rw [freqAt_eq]
    exact le_of_eq (from_empty p).2.symm
  | insert t w f hf _ ih =>
    intro p
    by_cases hpw : p = w
    · rw [hpw, (insert_self t w f).2]
      exact JSNumber.add_nonneg _ _ (ih w) hf
    · rw [(insert_other t w f p hpw).2]
      exact ih p

end Trie

/-- Counterexample to claim C8 as stated: frequencies are Numbers, and their addition is
exact only up to `2 ^ 53`. On the trie holding `a` with frequency `2 ^ 53`, `insert("a", 1)`
twice leaves the frequency `2 ^ 53` (each sum `2 ^ 53 + 1` rounds back to `2 ^ 53`), while
the single `insert("a", 2)` stores `2 ^ 53 + 2`. -/
theorem C8_insert_twice_counterexample :
    ¬ (∀ (t : Trie Char) (w : List Char) (f1 f2 : Int), 0 ≤ f1 → 0 ≤ f2 →
        (t.insert w f1).insert w f2 = t.insert w (f1 + f2)) := by
  intro h
  have h1 := h (Trie.empty.insert "a".toList 9007199254740992) "a".toList 1 1
    (by decide) (by decide)
  have h2 := congrArg (fun t => Trie.freqAt t "a".toList) h1
  revert h2
  decide

/-- Claim C8, amended. For every trie, every word `w` and all non-negative integer
frequencies `f1`, `f2` such that the previous accumulated frequency `p` of `w` is
non-negative and `p + f1 + f2 ≤ 2 ^ 53` (the range in which the addition of Numbers is
exact): `insert(w, f1)` followed by `insert(w, f2)` yields the same trie as the single
`insert(w, f1 + f2)`; the path of `w` ends at one terminal node whose frequency is
`p + f1 + f2`; and, the trie being built by `insert` calls, no result of `autocomplete`
contains a word twice. Inserting a word with 3 and then 4 into the empty trie gives a
terminal node of frequency 7. -/
theorem C8_insert_twice_accumulates {κ : Type} [DecidableEq κ] (t : Trie κ) (w : List κ)
    (f1 f2 : Int) (hf1 : 0 ≤ f1) (hf2 : 0 ≤ f2) (hp : 0 ≤ t.freqAt w)
    (hs : t.freqAt w + f1 + f2 ≤ 2 ^ 53) :
    (t.insert w f1).insert w f2 = t.insert w (f1 + f2) ∧
    (∃ m, ((t.insert w f1).insert w f2).getNode w = some m ∧ m.isEnd = true ∧
      m.frequency = t.freqAt w + (f1 + f2)) ∧
    (Trie.Built t → ∀ (pfx : List κ) (K : Int) (res : List (List κ)),
      ((t.insert w f1).insert w f2).autocomplete pfx K = some res → res.Nodup) ∧
    ((Trie.empty.insert w 3).insert w 4).freqAt w = 7 := by
  rw [← JSNumber.two53_eq] at hs
  have e1 : JSNumber.add (t.freqAt w) f1 = t.freqAt w + f1 :=
    JSNumber.add_exact _ _ (by omega) (by omega) (by omega) (by omega) (by omega) (by omega)
  have e2 : JSNumber.add (t.freqAt w + f1) f2 = t.freqAt w + f1 + f2 :=
    JSNumber.add_exact _ _ (by omega) (by omega) (by omega) (by omega) (by omega) (by omega)
  have e3 : JSNumber.add (t.freqAt w) (f1 + f2) = t.freqAt w + (f1 + f2) :=
    JSNumber.add_exact _ _ (by omega) (by omega) (by omega) (by omega) (by omega) (by omega)
  have heq : (t.insert w f1).insert w f2 = t.insert w (f1 + f2) := by
    simp only [Trie.insert]
    rw [Trie.insertAt_insertAt w t.root f1 f2]
    rw [← Trie.freqAt_eq, e1, e2, e3, add_assoc]
  refine ⟨heq, ?_, ?_, ?_⟩
  · rw [heq]
    obtain ⟨h1, h2⟩ := Trie.insert_self t w (f1 + f2)
    rw [e3] at h2
    unfold Trie.indexed at h1
    unfold Trie.freqAt at h2
    cases hg : (t.insert w (f1 + f2)).getNode w with
    | none => rw [hg] at h1; cases h1
    | some m =>
      rw [hg] at h1 h2
      exact ⟨m, rfl, h1, h2⟩
  · intro ht pfx K res hres
    exact Trie.autocomplete_nodup _ (Trie.Built.insert _ w f2 (Trie.Built.insert t w f1 ht))
      pfx K res hres
  · rw [(Trie.insert_self (Trie.empty.insert w 3) w 4).2,
      (Trie.insert_self (Trie.empty : Trie κ) w 3).2, Trie.freqAt_eq]
    have h0 : Trie.freqFrom (Trie.empty : Trie κ).root w = 0 := (Trie.from_empty w).2
    rw [h0]
    decide

/-- Witness of C8 amended: `hello` inserted with 3 and then 4 into the empty trie. -/
theorem C8_insert_twice_accumulates_witness :
    (0 : Int) ≤ 3 ∧ (0 : Int) ≤ 4 ∧
    0 ≤ (Trie.empty : Trie Char).freqAt "hello".toList ∧
    (Trie.empty : Trie Char).freqAt "hello".toList + 3 + 4 ≤ 2 ^ 53 ∧
    (((Trie.empty : Trie Char).insert "hello".toList 3).insert "hello".toList 4).getNode
        "hello".toList = some (TrieNode.mk [] true 7) ∧
    ((Trie.empty : Trie Char).insert "hello".toList 3).insert "hello".toList 4
      = Trie.empty.insert "hello".toList (3 + 4) ∧
    Trie.Built (Trie.empty : Trie Char) ∧
    (((Trie.empty : Trie Char).insert "hello".toList 3).insert "hello".toList 4).autocomplete
        "he".toList 5 = some ["hello".toList] ∧
    ["hello".toList].Nodup :=
  ⟨by decide, by decide, by decide, by decide, rfl,
    (C8_insert_twice_accumulates Trie.empty "hello".toList 3 4 (by decide) (by decide)
      (by decide) (by decide)).1,
    Trie.Built.empty, by decide,
    (C8_insert_twice_accumulates Trie.empty "hello".toList 3 4 (by decide) (by decide)
      (by decide) (by decide)).2.2.1 Trie.Built.empty "he".toList 5 _ (by decide)⟩

/-- Counterexample to claim C12 as stated: a negative frequency is not coerced. After
`insert("a", -5)` on the empty trie the word `a` is indexed with frequency `-5`, so the
stored frequency of a terminal node of a built trie can be negative. -/
theorem C12_negative_frequency_counterexample :
    ¬ (∀ (t : Trie Char), Trie.Built t → ∀ w, t.indexed w = true → 0 ≤ t.freqAt w) := by
  intro h
  have h1 := h (Trie.empty.insert "a".toList (-5)) (Trie.Built.insert _ _ _ Trie.Built.empty)
    "a".toList (by decide)
  revert h1
  decide

/-- Claim C12, amended. `insert` does not coerce the frequency argument to a non-negative
number. In every trie built from the empty trie by `insert` calls whose frequency
arguments are non-negative integers, the frequency stored at every terminal node is
`≥ 0`. -/
theorem C12_nonnegative_frequencies {κ : Type} [DecidableEq κ] (t : Trie κ)
    (ht : Trie.BuiltNonneg t) (p : List κ) (m : TrieNode κ) (hm : t.getNode p = some m)
    (_he : m.isEnd = true) : 0 ≤ m.frequency := by
  have := Trie.freqAt_nonneg ht p
  unfold Trie.freqAt at this
  rw [hm] at this
  exact this

/-- Witness of C12 amended: `a` inserted with 2 and then 0 into the empty trie. -/
theorem C12_nonnegative_frequencies_witness :
    Trie.BuiltNonneg ((Trie.empty.insert "a".toList 2).insert "a".toList 0) ∧
    ((Trie.empty.insert "a".toList 2).insert "a".toList 0).getNode "a".toList
      = some (TrieNode.mk [] true 2) ∧
    (TrieNode.mk ([] : List (Char × TrieNode Char)) true 2).isEnd = true ∧
    (0 : Int) ≤ (TrieNode.mk ([] : List (Char × TrieNode Char)) true 2).frequency :=
  ⟨.insert _ _ _ (by decide) (.insert _ _ _ (by decide) .empty), rfl, rfl,
    C12_nonnegative_frequencies ((Trie.empty.insert "a".toList 2).insert "a".toList 0)
      (.insert (Trie.empty.insert "a".toList 2) "a".toList 0 (by decide)
        (.insert Trie.empty "a".toList 2 (by decide) .empty))
      "a".toList (TrieNode.mk [] true 2) rfl rfl⟩

/-- Counterexample to claim C16 as stated: `insert("a")` with the frequency omitted on
the empty trie leaves `a` with frequency 1, not with its previous value 0. -/
theorem C16_omitted_frequency_counterexample :
    ¬ (∀ (t : Trie Char) (w : List Char), (t.insertOmitted w).freqAt w = t.freqAt w) := by
  intro h
  have h1 := h Trie.empty "a".toList
  revert h1
  decide

/-- Claim C16, amended. A missing frequency contributes the default 1, not 0: calling
`insert(w)` with the frequency argument omitted is the call `insert(w, 1)`; it marks `w`
terminal and makes its accumulated frequency the sum, as Numbers, of the previous one and
1, so that a word not previously indexed in a trie built by `insert` calls gets
frequency 1. -/
theorem C16_omitted_frequency_is_one {κ : Type} [DecidableEq κ] (t : Trie κ) (w : List κ) :
    t.insertOmitted w = t.insert w 1 ∧
    (t.insertOmitted w).indexed w = true ∧
    (t.insertOmitted w).freqAt w = JSNumber.add (t.freqAt w) 1 ∧
    (Trie.Built t → t.indexed w = false → (t.insertOmitted w).freqAt w = 1) := by
  refine ⟨rfl, (Trie.insert_self t w 1).1, (Trie.insert_self t w 1).2, ?_⟩
  intro ht hw
  have h0 := Trie.freqAt_of_not_indexed ht w hw
  have h1 : (t.insertOmitted w).freqAt w = JSNumber.add (t.freqAt w) 1 :=
    (Trie.insert_self t w 1).2
  rw [h1, h0]
  decide

/-- Witness of C16 amended on the empty trie. -/
theorem C16_omitted_frequency_is_one_witness :
    Trie.Built (Trie.empty : Trie Char) ∧
    (Trie.empty : Trie Char).indexed "a".toList = false ∧
    ((Trie.empty : Trie Char).insertOmitted "a".toList).freqAt "a".toList = 1 :=
  ⟨Trie.Built.empty, by decide,
    (C16_omitted_frequency_is_one Trie.empty "a".toList).2.2.2 Trie.Built.empty (by decide)⟩

/-- Counterexample to claim C19 as stated: the frequency of the inserted word is the sum
of Numbers, not the exact sum. On the trie holding `a` with frequency `2 ^ 53`,
`insert("a", 1)` leaves the frequency `2 ^ 53`, not `2 ^ 53 + 1`. -/
theorem C19_exact_sum_counterexample :
    ¬ (∀ (t : Trie Char) (w : List Char) (f : Int),
        (t.insert w f).freqAt w = t.freqAt w + f) := by
  intro h
  have h1 := h (Trie.empty.insert "a".toList 9007199254740992) "a".toList 1
  revert h1
  decide

/-- Claim C19, amended. `insert` affects only the inserted word: after `insert(w, f)`
every other word `w'` (a proper prefix or extension of `w` included) is indexed if and
only if it was indexed before, with the same accumulated frequency; `w` itself is indexed
with frequency the sum, as Numbers, of its previous accumulated frequency and `f`, which
is the previous frequency plus `f` whenever the two and their sum are within `± 2 ^ 53`;
the previous frequency is 0 when `w` was not indexed in a trie built by `insert` calls. -/
theorem C19_insert_frame {κ : Type} [DecidableEq κ] (t : Trie κ) (w : List κ) (f : Int) :
    (∀ w', w' ≠ w →
      (t.insert w f).indexed w' = t.indexed w' ∧ (t.insert w f).freqAt w' = t.freqAt w') ∧
    (t.insert w f).indexed w = true ∧
    (t.insert w f).freqAt w = JSNumber.add (t.freqAt w) f ∧
    (|t.freqAt w| ≤ 2 ^ 53 → |f| ≤ 2 ^ 53 → |t.freqAt w + f| ≤ 2 ^ 53 →
      (t.insert w f).freqAt w = t.freqAt w + f) ∧
    (Trie.Built t → t.indexed w = false → t.freqAt w = 0) := by
  refine ⟨fun w' h => Trie.insert_other t w f w' h, (Trie.insert_self t w f).1,
    (Trie.insert_self t w f).2, ?_, fun ht hw => Trie.freqAt_of_not_indexed ht w hw⟩
  intro h1 h2 h3
  rw [← JSNumber.two53_eq] at h1 h2 h3
  rw [abs_le] at h1 h2 h3
  rw [(Trie.insert_self t w f).2]
  exact JSNumber.add_exact _ _ h1.1 h1.2 h2.1 h2.2 h3.1 h3.2

/-- Witness of C19 amended on the reference vocabulary: inserting `app` leaves `apple` as
it was and indexes `app` with the inserted frequency. -/
theorem C19_insert_frame_witness :
    "apple".toList ≠ "app".toList ∧
    (seedTrie.insert "app".toList 6).indexed "apple".toList = seedTrie.indexed "apple".toList ∧
    (seedTrie.insert "app".toList 6).freqAt "apple".toList = seedTrie.freqAt "apple".toList ∧
    |seedTrie.freqAt "app".toList| ≤ 2 ^ 53 ∧ |(6 : Int)| ≤ 2 ^ 53 ∧
    |seedTrie.freqAt "app".toList + 6| ≤ 2 ^ 53 ∧
    (seedTrie.insert "app".toList 6).freqAt "app".toList = seedTrie.freqAt "app".toList + 6 ∧
    Trie.Built seedTrie ∧ seedTrie.indexed "app".toList = false ∧
    seedTrie.freqAt "app".toList = 0 :=
  ⟨by decide,
    ((C19_insert_frame seedTrie "app".toList 6).1 "apple".toList (by decide)).1,
    ((C19_insert_frame seedTrie "app".toList 6).1 "apple".toList (by decide)).2,
    by decide, by decide, by decide,
    (C19_insert_frame seedTrie "app".toList 6).2.2.2.1 (by decide) (by decide) (by decide),
    seedTrie_built, by decide,
    (C19_insert_frame seedTrie "app".toList 6).2.2.2.2 seedTrie_built (by decide)⟩

/-! ### Claims on the heap order of `MinHeap` and on the entries of the queue -/

namespace MinHeap
variable {κ : Type}

theorem isHeap_of_reachable {data : List (Item κ)} (h : Reachable data) :
    BinHeap.IsHeap (fun a b : Item κ => a.freq ≤ b.freq) data := by
  induction h with
  | fresh =>
    intro i x y _ hx
    simp at hx
  | push data item _ ih => exact (minPush_spec data item).2 ih
  | pop data _ ih =>
    cases data with
    | nil =>
      intro i x y _ hx
      simp [pop] at hx
    | cons m tl => exact (minPop_spec m tl).2.2 ih

end MinHeap

/-- Claim C17. For every heap reached from an empty heap by `push` and `pop` calls: the
array is in min-heap order (each element's `freq` is at least that of its parent at
index `floor((i-1)/2)`); `peek()` returns a stored item of minimum `freq`; `pop()` on a
non-empty heap returns that item and leaves the stored multiset without it; `push(item)`
adds exactly `item` to the stored multiset. -/
theorem C17_minheap_order {κ : Type} (data : List (Item κ)) (h : MinHeap.Reachable data) :
    (∀ i x y, 0 < i → data[i]? = some x → data[MinHeap.parent i]? = some y →
      y.freq ≤ x.freq) ∧
    (∀ m, MinHeap.peek data = some m → m ∈ data ∧ ∀ x ∈ data, m.freq ≤ x.freq) ∧
    (data ≠ [] → ∃ m, (MinHeap.pop data).1 = some m ∧ MinHeap.peek data = some m ∧
      List.Perm data (m :: (MinHeap.pop data).2)) ∧
    (∀ item, List.Perm (MinHeap.push data item) (item :: data)) := by
  have hh := MinHeap.isHeap_of_reachable h
  refine ⟨hh, ?_, ?_, ?_⟩
  · intro m hm
    exact ⟨List.mem_iff_getElem?.2 ⟨0, hm⟩, MinHeap.root_min hh hm⟩
  · intro hne
    cases data with
    | nil => exact absurd rfl hne
    | cons m tl =>
      obtain ⟨h1, h2, _⟩ := MinHeap.minPop_spec m tl
      exact ⟨m, h1, by simp [MinHeap.peek], h2.symm⟩
  · intro item
    exact (MinHeap.minPush_spec data item).1.trans List.perm_append_comm

/-- Witness of C17 on the heap holding `a:2` and `b:1`. -/
theorem C17_minheap_order_witness :
    MinHeap.Reachable (MinHeap.push (MinHeap.push [] (⟨"a".toList, 2⟩ : Item Char))
      ⟨"b".toList, 1⟩) ∧
    MinHeap.peek (MinHeap.push (MinHeap.push [] (⟨"a".toList, 2⟩ : Item Char))
      ⟨"b".toList, 1⟩) = some ⟨"b".toList, 1⟩ ∧
    ∀ x ∈ MinHeap.push (MinHeap.push [] (⟨"a".toList, 2⟩ : Item Char)) ⟨"b".toList, 1⟩,
      (⟨"b".toList, 1⟩ : Item Char).freq ≤ x.freq :=
  ⟨.push _ _ (.push _ _ .fresh), by decide,
    ((C17_minheap_order _ (.push _ _ (.push _ _ .fresh))).2.1 ⟨"b".toList, 1⟩
      (by decide)).2⟩

namespace PriorityQueue
variable {ρ : Type}

theorem dequeue_seq (q : PriorityQueue ρ) : q.dequeue.2._seq = q._seq := by
  rw [dequeue_eq]

theorem created_seq : ∀ (ops : List (Op ρ)) (q : PriorityQueue ρ),
    (∀ e ∈ created q ops, q._seq ≤ e.seq) ∧
    List.Pairwise (fun a b : Entry ρ => a.seq < b.seq) (created q ops)
  | [], q => by simp [created]
  | .enq r p :: ops, q => by
    obtain ⟨h1, h2⟩ := created_seq ops (q.enqueue r p)
    have hs : (q.enqueue r p)._seq = q._seq + 1 := rfl
    rw [hs] at h1
    simp only [created]
    refine ⟨?_, List.pairwise_cons.2 ⟨?_, h2⟩⟩
    · intro e he
      rcases List.mem_cons.1 he with h | h
      · rw [h]; exact le_refl _
      · have := h1 e h; omega
    · intro e he
      have := h1 e he
      show q._seq < e.seq
      omega
  | .deq :: ops, q => by
    obtain ⟨h1, h2⟩ := created_seq ops q.dequeue.2
    rw [dequeue_seq] at h1
    simp only [created]
    exact ⟨h1, h2⟩

end PriorityQueue

/-- Claim C18. No request is lost, duplicated or altered by the queue.
`enqueue(request, priority)` adds exactly the entry `{request, priority, seq}` with `seq`
the counter before the call, leaves the other entries as they were, and increases the
counter and `size()` by 1. `dequeue()` on a non-empty queue removes exactly the entry it
returns and decreases `size()` by 1; it never changes the counter. `isEmpty()` holds
exactly when `size()` is 0. The entries created by any sequence of calls have strictly
increasing, hence pairwise distinct, `seq`. -/
theorem C18_queue_entries_preserved {ρ : Type} :
    (∀ (q : PriorityQueue ρ) (request : ρ) (priority : Int),
      List.Perm (q.enqueue request priority).data
        (PriorityQueue.enqueueItem q request priority :: q.data) ∧
      PriorityQueue.enqueueItem q request priority = ⟨request, priority, q._seq⟩ ∧
      (q.enqueue request priority)._seq = q._seq + 1 ∧
      (q.enqueue request priority).size = q.size + 1) ∧
    (∀ (q : PriorityQueue ρ), q.isEmpty = false →
      ∃ e, q.dequeue.1 = some e ∧ List.Perm q.data (e :: q.dequeue.2.data) ∧
        q.dequeue.2.size + 1 = q.size) ∧
    (∀ (q : PriorityQueue ρ), q.dequeue.2._seq = q._seq) ∧
    (∀ (q : PriorityQueue ρ), q.isEmpty = true ↔ q.size = 0) ∧
    (∀ (q : PriorityQueue ρ) (ops : List (PriorityQueue.Op ρ)),
      List.Pairwise (fun a b : Entry ρ => a.seq < b.seq) (PriorityQueue.created q ops) ∧
      ((PriorityQueue.created q ops).map Entry.seq).Nodup) := by
  refine ⟨?_, ?_, PriorityQueue.dequeue_seq, ?_, ?_⟩
  · intro q r p
    have hperm := BinHeap.push_perm (fun c q => PriorityQueue.greater q c) q.data ⟨r, p, q._seq⟩
    rw [← PriorityQueue.enqueue_data] at hperm
    have hperm' : List.Perm (q.enqueue r p).data
        (PriorityQueue.enqueueItem q r p :: q.data) :=
      hperm.trans List.perm_append_comm
    refine ⟨hperm', rfl, rfl, ?_⟩
    have := hperm'.length_eq
    simpa [PriorityQueue.size] using this
  · intro q hne
    cases hd : q.data with
    | nil => simp [PriorityQueue.isEmpty, PriorityQueue.size, hd] at hne
    | cons top tl =>
      obtain ⟨h1, h2, _, _⟩ := PriorityQueue.dequeue_cons hd
      rw [hd] at h2
      refine ⟨top, h1, h2.symm, ?_⟩
      have := h2.length_eq
      simp only [List.length_cons] at this
      simp only [PriorityQueue.size, hd, List.length_cons]
      omega
  · intro q
    simp [PriorityQueue.isEmpty]
  · intro q ops
    have h := (PriorityQueue.created_seq ops q).2
    refine ⟨h, ?_⟩
    rw [List.Nodup, List.pairwise_map]
    exact h.imp (fun hab => Nat.ne_of_lt hab)

/-- Witness of C18 on the queue holding `("A", 0)`. -/
theorem C18_queue_entries_preserved_witness :
    ((PriorityQueue.empty : PriorityQueue String).enqueue "A" 0).isEmpty = false ∧
    ∃ e, ((PriorityQueue.empty : PriorityQueue String).enqueue "A" 0).dequeue.1 = some e ∧
      List.Perm ((PriorityQueue.empty : PriorityQueue String).enqueue "A" 0).data
        (e :: ((PriorityQueue.empty : PriorityQueue String).enqueue "A" 0).dequeue.2.data) ∧
      ((PriorityQueue.empty : PriorityQueue String).enqueue "A" 0).dequeue.2.size + 1
        = ((PriorityQueue.empty : PriorityQueue String).enqueue "A" 0).size :=
  ⟨by decide, C18_queue_entries_preserved.2.1 _ (by decide)⟩

/-! ### Evictions of the bounded selector -/

namespace Trie
variable {κ : Type}

/-- One step of the selector with the evicted items recorded: it agrees with `offer` and
keeps the invariant `SelInv` with the evicted items in the place of the discarded ones. -/
theorem offerEvict_step (K : Int) (hK : 1 ≤ K) (heap ev : List (Item κ)) (item : Item κ)
    (h : SelInv K heap ev) :
    ∃ heap' ev', offerEvict K heap ev item = some (heap', ev') ∧
      offer K heap item = some heap' ∧ SelInv K heap' ev' := by
  obtain ⟨hh, hlen, hfull, hge⟩ := h
  unfold offerEvict offer MinHeap.size
  by_cases hlt : (heap.length : Int) < K
  · rw [if_pos hlt, if_pos hlt]
    obtain ⟨hp, hi⟩ := MinHeap.minPush_spec heap item
    have hev : ev = [] := by
      rcases hfull with h1 | h1
      · exact h1
      · omega
    have hl := hp.length_eq
    simp only [List.length_append, List.length_singleton] at hl
    refine ⟨_, _, rfl, rfl, hi hh, by omega, Or.inl hev, ?_⟩
    intro r _ d hd
    rw [hev] at hd
    cases hd
  · rw [if_neg hlt, if_neg hlt]
    cases hd : heap with
    | nil =>
      rw [hd] at hlt
      simp at hlt
      omega
    | cons m tl =>
      have hpeek : MinHeap.peek (m :: tl) = some m := by simp [MinHeap.peek]
      obtain ⟨hp1, hperm, hheap⟩ := MinHeap.minPop_spec m tl
      rw [hd] at hh hlen hfull hge hlt
      simp only [List.length_cons] at hlen hlt
      have hmin : ∀ x ∈ m :: tl, m.freq ≤ x.freq := MinHeap.root_min hh hpeek
      rw [hpeek]
      dsimp only
      by_cases hf : m.freq < item.freq
      · rw [if_pos hf, if_pos hf]
        rcases hq : MinHeap.pop (m :: tl) with ⟨o, rest⟩
        rw [hq] at hp1 hperm hheap
        simp only at hp1 hperm hheap
        subst hp1
        dsimp only
        obtain ⟨hp, hi⟩ := MinHeap.minPush_spec rest item
        have hrest : List.Perm rest tl := (List.perm_cons m).1 hperm
        have hl : (MinHeap.push rest item).length = tl.length + 1 := by
          rw [hp.length_eq, List.length_append, List.length_singleton, hrest.length_eq]
        refine ⟨_, _, rfl, rfl, hi (hheap hh), ?_, Or.inr ?_, ?_⟩
        · rw [hl]; exact hlen
        · rw [hl]; push_cast; omega
        · intro r hr d hdm
          have hr' := hp.mem_iff.1 hr
          rcases List.mem_cons.1 hdm with h1 | h1
          · rw [h1]
            rcases List.mem_append.1 hr' with h2 | h2
            · exact hmin r (List.mem_cons_of_mem _ (hrest.mem_iff.1 h2))
            · rw [List.mem_singleton.1 h2]; omega
          · rcases List.mem_append.1 hr' with h2 | h2
            · exact hge r (List.mem_cons_of_mem _ (hrest.mem_iff.1 h2)) d h1
            · have := hge m (List.mem_cons_self _ _) d h1
              rw [List.mem_singleton.1 h2]; omega
      · rw [if_neg hf, if_neg hf]
        exact ⟨_, _, rfl, rfl, hh, hlen, hfull, hge⟩

theorem runEvict_spec (K : Int) (hK : 1 ≤ K) : ∀ (items heap ev : List (Item κ)),
    SelInv K heap ev →
    ∃ heap' ev', runEvict K heap ev items = some (heap', ev') ∧
      offerAll K heap items = some heap' ∧ SelInv K heap' ev'
  | [], heap, ev, h => ⟨heap, ev, rfl, rfl, h⟩
  | x :: xs, heap, ev, h => by
    obtain ⟨h1, e1, ho, ho', hinv⟩ := offerEvict_step K hK heap ev x h
    obtain ⟨h2, e2, hr, hr', hinv2⟩ := runEvict_spec K hK xs h1 e1 hinv
    refine ⟨h2, e2, ?_, ?_, hinv2⟩
    · rw [runEvict, ho]
      exact hr
    · rw [offerAll, ho']
      exact hr'

end Trie

/-- Counterexample to claim C15 as stated: with `K = 1` and the stream `a:1, b:2` the
selector retains `b:2` and has evicted `a:1`, so the minimum of the retained items, 2, is
not `≤` the frequency 1 of the evicted item. -/
theorem C15_min_not_below_evicted_counterexample :
    ¬ (∀ (K : Int) (stream heap ev : List (Item Char)), 1 ≤ K →
        Trie.runEvict K [] [] stream = some (heap, ev) →
        ∀ m, MinHeap.peek heap = some m → ∀ e ∈ ev, m.freq ≤ e.freq) := by
  intro h
  have h1 := h 1 [⟨"a".toList, 1⟩, ⟨"b".toList, 2⟩] [⟨"b".toList, 2⟩] [⟨"a".toList, 1⟩]
    (by decide) (by decide) ⟨"b".toList, 2⟩ (by decide) ⟨"a".toList, 1⟩ (by simp)
  revert h1
  decide

/-- Claim C15, amended. For every `K ≥ 1` and every stream of items offered to a fresh
selector, after each offer the selector has not raised, `size ≤ K`, and the minimum
frequency among the retained items (the `freq` of `peek`) is greater than or equal to the
frequency of every item evicted so far. -/
theorem C15_min_above_evicted {κ : Type} (K : Int) (hK : 1 ≤ K) (stream : List (Item κ))
    (n : Nat) :
    ∃ heap ev, Trie.runEvict K [] [] (stream.take n) = some (heap, ev) ∧
      Trie.offerAll K [] (stream.take n) = some heap ∧
      (MinHeap.size heap : Int) ≤ K ∧
      ∀ m, MinHeap.peek heap = some m →
        (∀ x ∈ heap, m.freq ≤ x.freq) ∧ ∀ e ∈ ev, e.freq ≤ m.freq := by
  obtain ⟨heap, ev, hr, ho, hinv⟩ :=
    Trie.runEvict_spec K hK (stream.take n) [] [] (Trie.selInv_nil K hK)
  refine ⟨heap, ev, hr, ho, hinv.2.1, ?_⟩
  intro m hm
  refine ⟨MinHeap.root_min hinv.1 hm, ?_⟩
  intro e he
  exact hinv.2.2.2 m (List.mem_iff_getElem?.2 ⟨0, hm⟩) e he

/-- Witness of C15 amended: capacity 1 and the stream `a:1, b:2`. -/
theorem C15_min_above_evicted_witness :
    (1 : Int) ≤ 1 ∧
    ∃ heap ev,
      Trie.runEvict 1 [] []
        (([⟨"a".toList, 1⟩, ⟨"b".toList, 2⟩] : List (Item Char)).take 2) = some (heap, ev) ∧
      Trie.offerAll 1 []
        (([⟨"a".toList, 1⟩, ⟨"b".toList, 2⟩] : List (Item Char)).take 2) = some heap ∧
      (MinHeap.size heap : Int) ≤ 1 ∧
      ∀ m, MinHeap.peek heap = some m →
        (∀ x ∈ heap, m.freq ≤ x.freq) ∧ ∀ e ∈ ev, e.freq ≤ m.freq :=
  ⟨by decide, C15_min_above_evicted 1 (by decide) _ 2⟩

/-! ### Ties at the truncation boundary -/

namespace Trie
variable {κ : Type} [DecidableEq κ]

/-- The result of `autocomplete` in terms of the visited candidates. -/
theorem autocomplete_visited (t : Trie κ) (pfx : List κ) (K : Int) (node : TrieNode κ)
    (h : t.getNode pfx = some node) :
    t.autocomplete pfx K
      = (offerAll K [] (t.visited pfx)).map (fun heap => (sortDesc heap).map Item.word) := by
  rw [autocomplete_eq t pfx K node h]
  unfold visited
  rw [h]

theorem visited_nodup (t : Trie κ) (ht : Built t) (pfx : List κ) :
    ((t.visited pfx).map Item.word).Nodup := by
  unfold visited
  cases h : t.getNode pfx with
  | none => exact List.nodup_nil
  | some node => exact (items_spec t ht pfx node h).1

/-- A candidate that arrives when an earlier candidate of at least its frequency has
already been discarded is never retained. -/
theorem late_tie_rejected (K : Int) (hK : 1 ≤ K) (l1 l2 : List (Item κ)) (u v : Item κ)
    (hnd : ((l1 ++ v :: l2).map Item.word).Nodup) (hu : u ∈ l1) (hf : v.freq ≤ u.freq)
    (h1 hfin : List (Item κ)) (ho1 : offerAll K [] l1 = some h1)
    (hofin : offerAll K [] (l1 ++ v :: l2) = some hfin) (hnot : u ∉ h1) :
    v.word ∉ hfin.map Item.word := by
  obtain ⟨h1', d1, ho, hinv, hp, _⟩ := offerAll_spec K hK l1 [] [] (selInv_nil K hK)
  rw [ho1] at ho
  cases ho
  simp only [List.nil_append, List.append_nil] at hp
  have hud : u ∈ d1 := by
    rcases List.mem_append.1 (hp.mem_iff.2 hu) with h | h
    · exact absurd h hnot
    · exact h
  obtain ⟨hh, _, hfull, hge⟩ := hinv
  have hK1 : K ≤ (h1.length : Int) := by
    rcases hfull with h | h
    · rw [h] at hud; cases hud
    · exact h
  have hoffer : offer K h1 v = some h1 := by
    obtain ⟨heap', ho', _, hc⟩ := offer_cases K hK h1 v hh
    rcases hc with ⟨hlt, _⟩ | ⟨_, m, rest, _, hpm, _, hc⟩
    · omega
    · rcases hc with ⟨hlt, _⟩ | ⟨_, he⟩
      · have := hge m (hpm.mem_iff.2 (List.mem_cons_self _ _)) u hud
        omega
      · rw [he] at ho'; exact ho'
  rw [offerAll_append, ho1] at hofin
  simp only [Option.bind, offerAll, hoffer] at hofin
  have hs1 := offerAll_subperm K l2 h1 hfin hofin
  have hs0 := offerAll_subperm K l1 [] h1 ho1
  simp only [List.nil_append] at hs0
  rw [List.map_append, List.map_cons, List.nodup_append] at hnd
  obtain ⟨_, hnd2, hdisj⟩ := hnd
  intro hv
  obtain ⟨it, hit, hw⟩ := List.mem_map.1 hv
  rcases List.mem_append.1 (hs1.subset hit) with h | h
  · exact hdisj (List.mem_map.2 ⟨it, hs0.subset h, hw⟩) (List.mem_cons_self _ _)
  · exact (List.nodup_cons.1 hnd2).1 (List.mem_map.2 ⟨it, h, hw⟩)

end Trie

/-- Counterexample to claim C11 as stated: on the trie built by `insert("a", 1)`,
`insert("b", 1)`, `insert("c", 5)` the traversal from the root visits `a`, `b`, `c`;
`autocomplete("", 2)` returns `c, b`. The words `a` and `b` have equal frequency, `a` is
visited first and `b` is returned, yet `a` is not: when `c` arrives, the root `a` of the
heap is the item evicted. -/
theorem C11_first_seen_wins_counterexample :
    ¬ (∀ (t : Trie Char) (pfx : List Char) (K : Int), Trie.Built t → 1 ≤ K →
        ∀ (l1 l2 : List (Item Char)) (u v : Item Char) (res : List (List Char)),
          t.visited pfx = l1 ++ v :: l2 → u ∈ l1 → u.freq = v.freq →
          t.autocomplete pfx K = some res → v.word ∈ res → u.word ∈ res) := by
  intro h
  have h1 := h (((Trie.empty.insert "a".toList 1).insert "b".toList 1).insert "c".toList 5)
    [] 2 (.insert _ _ _ (.insert _ _ _ (.insert _ _ _ .empty))) (by decide)
    [⟨"a".toList, 1⟩] [⟨"c".toList, 5⟩] ⟨"a".toList, 1⟩ ⟨"b".toList, 1⟩
    ["c".toList, "b".toList] (by decide) (by simp) rfl (by decide) (by decide)
  revert h1
  decide

/-- Claim C11, amended. For every trie built by `insert` calls, every prefix and every
`K ≥ 1`: if `u` is visited before `v` in the depth-first traversal, the frequency of `v`
is at most that of `u` (equal frequencies included), and `v` is in the result of
`autocomplete(prefix, K)`, then `u` was retained by the selector when `v` was visited.
Equivalently, once `u` has been discarded no candidate visited later with a frequency at
most that of `u` is returned. Which of several retained items tied for the minimum a
later eviction removes depends on the heap position, not on the visiting order. -/
theorem C11_tie_kept_at_arrival {κ : Type} [DecidableEq κ] (t : Trie κ) (ht : Trie.Built t)
    (pfx : List κ) (K : Int) (hK : 1 ≤ K) (l1 l2 : List (Item κ)) (u v : Item κ)
    (hsplit : t.visited pfx = l1 ++ v :: l2) (hu : u ∈ l1) (hf : v.freq ≤ u.freq) :
    ∃ h1 res, Trie.offerAll K [] l1 = some h1 ∧ t.autocomplete pfx K = some res ∧
      (v.word ∈ res → u ∈ h1) := by
  obtain ⟨h1, d1, ho1, _, _, _⟩ :=
    Trie.offerAll_spec K hK l1 [] [] (Trie.selInv_nil K hK)
  obtain ⟨hfin, dfin, hofin, _, _, _⟩ :=
    Trie.offerAll_spec K hK (t.visited pfx) [] [] (Trie.selInv_nil K hK)
  have hnd := Trie.visited_nodup t ht pfx
  cases hn : t.getNode pfx with
  | none =>
    unfold Trie.visited at hsplit
    rw [hn] at hsplit
    cases l1 <;> cases hsplit
  | some node =>
    refine ⟨h1, (Trie.sortDesc hfin).map Item.word, ho1, ?_, ?_⟩
    · rw [Trie.autocomplete_visited t pfx K node hn, hofin]
      rfl
    · intro hv
      by_contra hnot
      rw [hsplit] at hnd hofin
      have hv' : v.word ∈ hfin.map Item.word := by
        obtain ⟨it, hit, hw⟩ := List.mem_map.1 hv
        exact List.mem_map.2 ⟨it, (Trie.sortDesc_perm hfin).mem_iff.1 hit, hw⟩
      exact Trie.late_tie_rejected K hK l1 l2 u v hnd hu hf h1 hfin ho1 hofin hnot hv'

/-- Witness of C11 amended on the trie `a:1, b:1, c:5` with `K = 2`, `u = a`, `v = b`. -/
theorem C11_tie_kept_at_arrival_witness :
    Trie.Built (((Trie.empty.insert "a".toList 1).insert "b".toList 1).insert "c".toList 5) ∧
    (1 : Int) ≤ 2 ∧
    (((Trie.empty.insert "a".toList 1).insert "b".toList 1).insert "c".toList 5).visited []
      = [⟨"a".toList, 1⟩] ++ ⟨"b".toList, 1⟩ :: [⟨"c".toList, 5⟩] ∧
    ∃ h1 res, Trie.offerAll 2 [] [(⟨"a".toList, 1⟩ : Item Char)] = some h1 ∧
      (((Trie.empty.insert "a".toList 1).insert "b".toList 1).insert "c".toList 5).autocomplete
        [] 2 = some res ∧
      ((⟨"b".toList, 1⟩ : Item Char).word ∈ res → (⟨"a".toList, 1⟩ : Item Char) ∈ h1) :=
  ⟨.insert _ _ _ (.insert _ _ _ (.insert _ _ _ .empty)), by decide, by decide,
    C11_tie_kept_at_arrival
      (((Trie.empty.insert "a".toList 1).insert "b".toList 1).insert "c".toList 5)
      (.insert _ _ _ (.insert _ _ _ (.insert _ _ _ .empty))) [] 2 (by decide)
      [⟨"a".toList, 1⟩] [⟨"c".toList, 5⟩] ⟨"a".toList, 1⟩ ⟨"b".toList, 1⟩
      (by decide) (by simp) (by decide)⟩

/-! ### Every node of a built trie leads to a terminal node -/

namespace Trie
variable {κ : Type} [DecidableEq κ]

theorem endFrom_append (n m : TrieNode κ) (p s : List κ) (h : getNodeFrom n p = some m) :
    endFrom n (p ++ s) = endFrom m s := by
  unfold endFrom
  rw [getNodeFrom_append, h]
  rfl

/-- The walk of `insert(w, f)` leaves the node at the end of every path that is not an
initial segment of `w` as it was. -/
theorem getNodeFrom_insertAt_off : ∀ (w : List κ) (n : TrieNode κ) (f : Int) (p : List κ),
    (¬ ∃ s, w = p ++ s) → getNodeFrom (insertAt n w f) p = getNodeFrom n p
  | [], .mk cs e fr, f, [], h => absurd ⟨[], rfl⟩ h
  | [], .mk cs e fr, f, ch :: rest, _ => by
    simp only [insertAt, getNodeFrom, TrieNode.children]
  | c :: ws, .mk cs e fr, f, [], h => absurd ⟨c :: ws, rfl⟩ h
  | c :: ws, .mk cs e fr, f, ch :: rest, h => by
    by_cases hch : ch = c
    · subst hch
      have hr : ¬ ∃ s, ws = rest ++ s := by
        rintro ⟨s, hs⟩
        exact h ⟨s, by rw [hs]; rfl⟩
      cases hc : TrieNode.getChild cs ch with
      | some child =>
        simp only [insertAt, hc, getNodeFrom, TrieNode.children,
          TrieNode.getChild_setChild_self cs ch child _ hc]
        exact getNodeFrom_insertAt_off ws child f rest hr
      | none =>
        have ih := getNodeFrom_insertAt_off ws TrieNode.empty f rest hr
        have hne : rest ≠ [] := by
          intro e
          exact hr ⟨ws, by rw [e]; rfl⟩
        have hempty : getNodeFrom (TrieNode.empty : TrieNode κ) rest = none := by
          cases rest with
          | nil => exact absurd rfl hne
          | cons a b => rfl
        simp only [insertAt, hc, getNodeFrom, TrieNode.children,
          TrieNode.getChild_append_new cs ch _ hc]
        rw [ih, hempty]
    · cases hc : TrieNode.getChild cs c with
      | some child =>
        simp only [insertAt, hc, getNodeFrom, TrieNode.children,
          TrieNode.getChild_setChild_other cs c ch _ hch]
      | none =>
        simp only [insertAt, hc, getNodeFrom, TrieNode.children,
          TrieNode.getChild_append_other cs c ch _ hch]

theorem indexed_empty (w : List κ) : (Trie.empty : Trie κ).indexed w = false :=
  (from_empty w).1

/-- In a built trie every node other than the root of the empty trie has a terminal node
in its subtree. -/
theorem built_live {t : Trie κ} (ht : Built t) :
    ∀ (p : List κ) (m : TrieNode κ), t.getNode p = some m →
      (∃ s, endFrom m s = true) ∨ (p = [] ∧ t = Trie.empty) := by
  induction ht with
  | empty =>
    intro p m h
    cases p with
    | nil => exact Or.inr ⟨rfl, rfl⟩
    | cons ch rest => cases h
  | insert t w f _ ih =>
    intro p m h
    by_cases hp : ∃ s, w = p ++ s
    · obtain ⟨s, hs⟩ := hp
      left
      refine ⟨s, ?_⟩
      have h1 := (insert_self t w f).1
      rw [indexed_eq, hs] at h1
      rw [← endFrom_append (t.insert (p ++ s) f).root m p s (by rw [← hs]; exact h)]
      rw [← hs]
      rw [← hs] at h1
      exact h1
    · have h2 : t.getNode p = some m := by
        have := getNodeFrom_insertAt_off w t.root f p hp
        unfold getNode insert at h
        rw [this] at h
        exact h
      rcases ih p m h2 with h3 | ⟨h3, _⟩
      · exact Or.inl h3
      · exact absurd ⟨w, by rw [h3]; rfl⟩ hp

theorem built_ne_empty_iff {t : Trie κ} (ht : Built t) :
    t ≠ Trie.empty ↔ ∃ w, t.indexed w = true := by
  constructor
  · intro hne
    cases ht with
    | empty => exact absurd rfl hne
    | insert t' w f _ => exact ⟨w, (insert_self t' w f).1⟩
  · rintro ⟨w, hw⟩ he
    rw [he, indexed_empty] at hw
    cases hw

end Trie

/-- Claim C20. In every trie built from the empty trie by `insert` calls, every node other
than the root of the empty trie has a terminal node in its subtree; in particular every
leaf is terminal. Consequently, for every `K ≥ 1`, `autocomplete(prefix, K)` is non-empty
if and only if the prefix is a path of the trie and at least one word has been inserted
(some word is indexed, that is, the trie is not the empty one); a path without terminal
nodes below it exists only for the empty prefix on the empty trie. -/
theorem C20_no_dead_end {κ : Type} [DecidableEq κ] (t : Trie κ) (ht : Trie.Built t) :
    (∀ (p : List κ) (m : TrieNode κ), t.getNode p = some m →
      (∃ s m', Trie.getNodeFrom m s = some m' ∧ m'.isEnd = true) ∨
      (p = [] ∧ t = Trie.empty)) ∧
    (∀ (p : List κ) (m : TrieNode κ), t.getNode p = some m → m.children = [] →
      m.isEnd = true ∨ (p = [] ∧ t = Trie.empty)) ∧
    (t ≠ Trie.empty ↔ ∃ w, t.indexed w = true) ∧
    (∀ (pfx : List κ) (K : Int), 1 ≤ K →
      ∃ res, t.autocomplete pfx K = some res ∧
        (res ≠ [] ↔ ((t.getNode pfx).isSome = true ∧ ∃ w, t.indexed w = true))) := by
  have hlive : ∀ (p : List κ) (m : TrieNode κ), t.getNode p = some m →
      (∃ s m', Trie.getNodeFrom m s = some m' ∧ m'.isEnd = true) ∨
      (p = [] ∧ t = Trie.empty) := by
    intro p m h
    rcases Trie.built_live ht p m h with ⟨s, hs⟩ | h1
    · left
      unfold Trie.endFrom at hs
      cases hg : Trie.getNodeFrom m s with
      | none => rw [hg] at hs; cases hs
      | some m' => rw [hg] at hs; exact ⟨s, m', hg, hs⟩
    · exact Or.inr h1
  refine ⟨hlive, ?_, Trie.built_ne_empty_iff ht, ?_⟩
  · intro p m h hc
    rcases hlive p m h with ⟨s, m', hs, he⟩ | h1
    · left
      cases s with
      | nil =>
        simp only [Trie.getNodeFrom, Option.some.injEq] at hs
        rw [hs]; exact he
      | cons ch rest =>
        simp only [Trie.getNodeFrom, hc, TrieNode.getChild] at hs
        cases hs
    · exact Or.inr h1
  · intro pfx K hK
    obtain ⟨items, heap, disc, hres, hperm, hlen, _, _, hsound, hcomplete⟩ :=
      Trie.autocomplete_core t ht pfx K hK
    refine ⟨_, hres, ?_⟩
    have hne : (Trie.sortDesc heap).map Item.word ≠ [] ↔ items ≠ [] := by
      have h1 : ((Trie.sortDesc heap).map Item.word).length = heap.length := by
        rw [List.length_map, (Trie.sortDesc_perm heap).length_eq]
      rw [← List.length_pos, ← List.length_pos, h1]
      constructor
      · intro h; omega
      · intro h; omega
    rw [hne]
    constructor
    · intro hi
      obtain ⟨it, hit⟩ := List.exists_mem_of_ne_nil items hi
      obtain ⟨h1, ⟨s, hs⟩, _⟩ := hsound it hit
      refine ⟨?_, it.word, h1⟩
      rw [hs] at h1
      unfold Trie.indexed Trie.getNode at h1
      rw [Trie.getNodeFrom_append] at h1
      unfold Trie.getNode
      cases hg : Trie.getNodeFrom t.root pfx with
      | none => rw [hg] at h1; cases h1
      | some m => rfl
    · rintro ⟨hsome, w, hw⟩
      cases hg : t.getNode pfx with
      | none => rw [hg] at hsome; cases hsome
      | some m =>
        rcases Trie.built_live ht pfx m hg with ⟨s, hs⟩ | ⟨_, he⟩
        · have h2 : t.indexed (pfx ++ s) = true := by
            rw [Trie.indexed_eq, Trie.endFrom_append t.root m pfx s hg]
            exact hs
          obtain ⟨it, hit, _⟩ := hcomplete (pfx ++ s) h2 ⟨s, rfl⟩
          exact List.ne_nil_of_mem hit
        · rw [he, Trie.indexed_empty] at hw
          cases hw

/-- Witness of C20 on the reference vocabulary with the prefix `b`. -/
theorem C20_no_dead_end_witness :
    Trie.Built seedTrie ∧ (1 : Int) ≤ 5 ∧
    ∃ res, seedTrie.autocomplete "b".toList 5 = some res ∧
      (res ≠ [] ↔ ((seedTrie.getNode "b".toList).isSome = true ∧
        ∃ w, seedTrie.indexed w = true)) :=
  ⟨seedTrie_built, by decide,
    (C20_no_dead_end seedTrie seedTrie_built).2.2.2 "b".toList 5 (by decide)⟩
